import Mathlib

/-!
Verification of the multilingual speaker-diarization pipeline
(`multilingual_pipeline.py`, `speechbrain_engine.py`).

The Python dictionaries that flow through the pipeline are embedded as Lean
structures over `ℚ` (the float arithmetic of the source is modelled exactly by
rational arithmetic), and each pipeline stage is embedded as a pure function
translated line by line from the source.  Python lists iterated with an
accumulator become `foldl`-style recursions; the in-place mutation of input
dictionaries performed by `_create_overlap_free_segments` is tracked explicitly
by returning the post-call values of the input segments alongside the output.
-/

namespace Pipeline

/-- A speaker segment dictionary: keys `start`, `end`, `duration`, `speaker`,
`segment_id`.  The `end` key is named `stop` (`end` is reserved).  Raw segments
coming out of diarization carry no meaningful `segment_id`; the field is only
read on segments produced by `_create_overlap_free_segments`, which assigns it. -/
structure Seg where
  start : ℚ
  stop : ℚ
  duration : ℚ
  speaker : String
  segment_id : ℕ
deriving DecidableEq

/-- Pipeline configuration default `min_segment_duration = 0.5`. -/
def minSegmentDuration : ℚ := 1/2

/-- Pipeline configuration default `overlap_threshold = 0.1`. -/
def overlapThreshold : ℚ := 1/10

/-- Pipeline configuration default `min_language_confidence = 0.7`. -/
def minLanguageConfidence : ℚ := 7/10

/-- Pipeline configuration default `consensus_samples = 3`. -/
def consensusSamples : ℕ := 3

/-- Stable insertion of a segment into a list sorted by `start`
(the element is placed before the first element with a `≥` start,
matching the stability of Python's `sorted`). -/
def insertByStart (s : Seg) : List Seg → List Seg
  | [] => [s]
  | t :: ts => if s.start ≤ t.start then s :: t :: ts else t :: insertByStart s ts

/-- `sorted(raw_segments, key=lambda x: x['start'])` (stable ascending sort). -/
def sortByStart : List Seg → List Seg
  | [] => []
  | s :: ss => insertByStart s (sortByStart ss)

/-- One iteration of the loop body of `_create_overlap_free_segments`
(multilingual_pipeline.py lines 323-364), pattern-matched on the shape of the
`clean_segments` accumulator, which is kept in reverse (head = most recently
appended element).  The too-short guard (line 325) precedes the overlap
handling in both shapes, exactly as in the source, where it runs before the
`if clean_segments:` test.  Returns the updated `clean_segments` together with
the post-iteration value of the input segment dictionary (the source mutates
`segment['start']` and `segment['duration']` in place in the small-overlap
split and the different-speaker trim branches). -/
def overlapStep (seg : Seg) : List Seg → List Seg × Seg
  | [] =>
    if seg.duration < minSegmentDuration then ([], seg)
    else ([{ seg with segment_id := 0 }], seg)
  | prev :: rest =>
    if seg.duration < minSegmentDuration then (prev :: rest, seg)
    else if seg.start < prev.stop then
      if prev.stop - seg.start ≤ overlapThreshold then
        let mid := (prev.stop + seg.start) / 2
        let prev' := { prev with stop := mid, duration := mid - prev.start }
        let seg' := { seg with start := mid, duration := seg.stop - mid }
        ({ seg' with segment_id := rest.length + 1 } :: prev' :: rest, seg')
      else if seg.speaker = prev.speaker then
        let newStop := max prev.stop seg.stop
        ({ prev with stop := newStop, duration := newStop - prev.start } :: rest, seg)
      else if prev.stop - seg.start < seg.duration then
        let seg' := { seg with start := prev.stop, duration := seg.stop - prev.stop }
        ({ seg' with segment_id := rest.length + 1 } :: prev :: rest, seg')
      else (prev :: rest, seg)
    else ({ seg with segment_id := rest.length + 1 } :: prev :: rest, seg)

/-- The loop of `_create_overlap_free_segments` over the time-sorted segments.
First component: `clean_segments` reversed; second: post-call values of the
processed input segments, reversed. -/
def overlapLoop (acc post : List Seg) : List Seg → List Seg × List Seg
  | [] => (acc, post)
  | seg :: rest =>
    overlapLoop (overlapStep seg acc).1 ((overlapStep seg acc).2 :: post) rest

/-- `_create_overlap_free_segments` together with the post-call values of the
input segment dictionaries (in time-sorted order). -/
def createOverlapFreeSegmentsPost (raw : List Seg) : List Seg × List Seg :=
  let r := overlapLoop [] [] (sortByStart raw)
  (r.1.reverse, r.2.reverse)

/-- `_create_overlap_free_segments` (multilingual_pipeline.py lines 311-367). -/
def createOverlapFreeSegments (raw : List Seg) : List Seg :=
  (createOverlapFreeSegmentsPost raw).1

/-- Concrete input list exercising the trim-then-split interaction of
`_create_overlap_free_segments` (three distinct speakers, all segments of
duration `≥ 0.5` with consistent `duration = end - start`). -/
def exOverlap : List Seg :=
  [⟨0, 1, 1, "SPEAKER_00", 0⟩,
   ⟨13/25, 26/25, 13/25, "SPEAKER_01", 0⟩,
   ⟨19/20, 3/2, 11/20, "SPEAKER_02", 0⟩]

/-- A placeholder segment for `List.getD`. -/
def dummySeg : Seg := ⟨0, 0, 0, "", 0⟩

/-- Python's `max(xs, key=f)`: the first element attaining the maximal key
(`max` keeps the earlier element on ties). -/
def pyMaxBy {α β : Type} [LinearOrder β] (f : α → β) : List α → Option α
  | [] => none
  | a :: as =>
    match pyMaxBy f as with
    | none => some a
    | some b => if f a < f b then some b else some a

/-- `np.argmin`-style selection: the first element attaining the minimal key. -/
def pyMinBy {α β : Type} [LinearOrder β] (f : α → β) : List α → Option α
  | [] => none
  | a :: as =>
    match pyMinBy f as with
    | none => some a
    | some b => if f b < f a then some b else some a

/-- The distinct elements of a list in first-occurrence order (the key order of
a Python `Counter` / insertion-ordered `dict`). -/
def firstUniq {α : Type} [DecidableEq α] : List α → List α
  | [] => []
  | a :: as => a :: (firstUniq as).filter (fun x => x ≠ a)

/-- Number of occurrences of `x` in `ls`. -/
def countOf (ls : List String) (x : String) : ℕ := (ls.filter (fun y => y = x)).length

/-- One language-detection attempt, as collected in `language_detections`
(multilingual_pipeline.py lines 437-441). -/
structure Detection where
  language : String
  confidence : ℚ
  attempt : ℕ
deriving DecidableEq

/-- `Counter(languages).most_common(1)[0]` (line 450-451): the language with the
largest count; `Counter` orders keys by first occurrence and `most_common` is a
stable descending sort, so ties go to the first-seen language. -/
def mostCommon (ls : List String) : Option (String × ℕ) :=
  pyMaxBy (fun p => p.2) ((firstUniq ls).map (fun x => (x, countOf ls x)))

/-- The consensus computation of `_process_single_segment_with_detection`
(multilingual_pipeline.py lines 446-466) applied to the gathered detection
attempts: if the most common language reaches `(consensus_samples + 1) // 2`
occurrences its mean confidence is used, otherwise the single attempt with the
highest confidence; with no attempts at all the result is `("en", 0)`. -/
def determineConsensus (dets : List Detection) : String × ℚ :=
  match mostCommon (dets.map (fun d => d.language)) with
  | none => ("en", 0)
  | some (lang, cnt) =>
    if (consensusSamples + 1) / 2 ≤ cnt then
      (lang, (((dets.filter (fun d => d.language = lang)).map (fun d => d.confidence)).sum) /
        (((dets.filter (fun d => d.language = lang)).length : ℚ)))
    else
      match pyMaxBy (fun d => d.confidence) dets with
      | none => ("en", 0)
      | some best => (best.language, best.confidence)

/-- A per-segment processing result dictionary as produced by
`_process_single_segment_with_detection` / `_create_failed_segment_result`
(the `detection_details` and `transcription_quality` diagnostic entries of the
success dictionary are not read by any downstream stage and are omitted). -/
structure SegResult where
  segment_id : ℕ
  start : ℚ
  stop : ℚ
  duration : ℚ
  speaker : String
  text : String
  language : String
  language_confidence : ℚ
  processing_status : String
  error : Option String
deriving DecidableEq

/-- `_create_failed_segment_result` (multilingual_pipeline.py lines 564-577). -/
def createFailedSegmentResult (seg : Seg) (err : String) : SegResult :=
  { segment_id := seg.segment_id
    start := seg.start
    stop := seg.stop
    duration := seg.duration
    speaker := seg.speaker
    text := "[Processing failed: " ++ err ++ "]"
    language := "unknown"
    language_confidence := 0
    processing_status := "failed"
    error := some err }

/-- `int(segment['start'] * sr)` at `sr = 16000` (line 389); `int` truncates,
which is `⌊·⌋` for the non-negative times produced upstream. -/
def startSample (seg : Seg) : ℤ := Int.floor (seg.start * 16000)

/-- `int(segment['end'] * sr)` at `sr = 16000` (line 390). -/
def endSample (seg : Seg) : ℤ := Int.floor (seg.stop * 16000)

/-- `len(audio_data[start_sample:end_sample])` for a buffer of `n` samples and
non-negative sample indices (Python slices clamp to `[0, n]` and empty out when
the bounds cross; negative wrap-around indices are outside this model). -/
def sliceLen (n : ℤ) (seg : Seg) : ℤ :=
  max 0 (min (endSample seg) n - max (startSample seg) 0)

/-- The per-segment dispatch of `_process_segments_with_language_detection`
(multilingual_pipeline.py lines 388-396): a slice shorter than `sr * 0.3 = 4800`
samples yields the failed placeholder with error `'too_short'` and the
transcription machinery (modelled by `oracle`) is never consulted. -/
def processOneSegment (n : ℤ) (oracle : Seg → SegResult) (seg : Seg) : SegResult :=
  if sliceLen n seg < 4800 then createFailedSegmentResult seg "too_short"
  else oracle seg

/-- A stand-in transcription oracle for concrete instantiations. -/
def dummyOracle : Seg → SegResult :=
  fun seg => createFailedSegmentResult seg "unused"

/-- A segment whose audio slice spans `0.2s`, i.e. `3200 < 4800` samples. -/
def shortSeg : Seg := ⟨0, 1/5, 1/5, "SPEAKER_00", 0⟩

/-- One entry of `speaker_language_data[speaker]`
(multilingual_pipeline.py lines 591-596). -/
structure LangData where
  language : String
  confidence : ℚ
  duration : ℚ
  text_quality : ℚ
deriving DecidableEq

/-- The dictionary appended for a successful result (lines 591-596);
`text_quality` is `len(result.get('text', '')) / max(result['duration'], 1)` —
characters per second, not words per second. -/
def dataOf (r : SegResult) : LangData :=
  ⟨r.language, r.language_confidence, r.duration, (r.text.length : ℚ) / max r.duration 1⟩

/-- The collection filter of `_determine_speaker_languages` (line 589): only
successfully processed results with positive confidence contribute. -/
def successFilter (results : List SegResult) : List SegResult :=
  results.filter (fun r => r.processing_status = "success" ∧ 0 < r.language_confidence)

/-- The contributing results of one speaker, in input order. -/
def spkSegs (results : List SegResult) (spk : String) : List SegResult :=
  (successFilter results).filter (fun r => r.speaker = spk)

/-- `speaker_language_data[speaker]` (lines 585-596). -/
def dataFor (results : List SegResult) (spk : String) : List LangData :=
  (spkSegs results spk).map dataOf

/-- The keys of the `speaker_language_data` defaultdict, in insertion order:
exactly the speakers owning at least one contributing result. -/
def speakersOf (results : List SegResult) : List String :=
  firstUniq ((successFilter results).map (fun r => r.speaker))

/-- The per-segment weight of `_determine_speaker_languages` (lines 617-621):
`confidence * 0.5 + min(duration / 5.0, 1.0) * 0.3 + min(text_quality, 1.0) * 0.2`. -/
def dataWeight (d : LangData) : ℚ :=
  d.confidence * (1/2) + min (d.duration / 5) 1 * (3/10) + min d.text_quality 1 * (1/5)

/-- One update of the `language_scores` defaultdict (lines 614-624): the entry
of the datum's language accumulates its weight and count, a fresh language is
appended at the end (defaultdict insertion order). -/
def addScore (scores : List (String × ℚ × ℕ)) (d : LangData) : List (String × ℚ × ℕ) :=
  if scores.any (fun p => p.1 = d.language) then
    scores.map (fun p => if p.1 = d.language then (p.1, p.2.1 + dataWeight d, p.2.2 + 1) else p)
  else scores ++ [(d.language, dataWeight d, 1)]

/-- `language_scores` after the accumulation loop, as an insertion-ordered
association list `language ↦ (weight, count)`. -/
def langScores (data : List LangData) : List (String × ℚ × ℕ) :=
  data.foldl addScore []

/-- The per-segment weight expressed on the raw result (lines 595 and 617-621
combined): `0.5 * language_confidence + 0.3 * min(duration / 5, 1) + 0.2 *
min(len(text) / max(duration, 1), 1)` — a characters-per-second density term. -/
def segWeight (r : SegResult) : ℚ :=
  r.language_confidence * (1/2) + min (r.duration / 5) 1 * (3/10) +
    min ((r.text.length : ℚ) / max r.duration 1) 1 * (1/5)

/-- Closed form of the accumulated `language_scores`: one entry per language
in first-occurrence order, holding that language's total weight and count. -/
def scoresClosed (data : List LangData) : List (String × ℚ × ℕ) :=
  (firstUniq (data.map (fun d => d.language))).map
    (fun l => (l, ((data.filter (fun d => d.language = l)).map dataWeight).sum,
      (data.filter (fun d => d.language = l)).length))

/-- A `SpeakerLanguageProfile` dictionary (lines 640-645). -/
structure Profile where
  language : String
  confidence : ℚ
  segments_analyzed : ℕ
  consistency : ℚ
deriving DecidableEq

/-- The per-speaker body of `_determine_speaker_languages` (lines 600-645):
weighted scores per language, primary language by maximal accumulated weight
(Python `max` keeps the first key on ties), confidence as the primary weight's
share of the total weight (0 when the total is not positive, capped at 1),
consistency as the primary language's detection rate.  The `if not
language_data` branch (lines 601-608) is reproduced even though the defaultdict
only ever holds non-empty lists. -/
def profileFor (data : List LangData) : Profile :=
  if data.isEmpty then ⟨"en", 0, 0, 0⟩
  else
    match pyMaxBy (fun p : String × ℚ × ℕ => p.2.1) (langScores data) with
    | none => ⟨"en", 0, data.length, 0⟩
    | some p =>
      let total := (data.map dataWeight).sum
      ⟨p.1, min (if 0 < total then p.2.1 / total else 0) 1, data.length,
        (p.2.2 : ℚ) / (data.length : ℚ)⟩

/-- `_determine_speaker_languages` (multilingual_pipeline.py lines 579-647):
one profile per key of the `speaker_language_data` defaultdict. -/
def determineSpeakerLanguages (results : List SegResult) : List (String × Profile) :=
  (speakersOf results).map (fun spk => (spk, profileFor (dataFor results spk)))

/-- A Python `str.split()` whitespace character. -/
def isPyWhitespace (c : Char) : Bool := c = ' ' ∨ c = '\t' ∨ c = '\n' ∨ c = '\r'

/-- Splitting a character list on whitespace runs, dropping empty pieces
(the behaviour of Python's `str.split()` with no argument); `acc` holds the
characters of the current word in reverse. -/
def pySplitAux (acc : List Char) : List Char → List (List Char)
  | [] => if acc.isEmpty then [] else [acc.reverse]
  | c :: cs =>
    if isPyWhitespace c then
      if acc.isEmpty then pySplitAux [] cs else acc.reverse :: pySplitAux [] cs
    else pySplitAux (c :: acc) cs

/-- `len(text.split())`: the number of whitespace-separated words. -/
def wordCount (s : String) : ℕ := (pySplitAux [] s.data).length

/-- Modelled from the spec: the per-segment weight as the specification words
it, with a words-per-second transcription-density term
`min(words_per_second, 1)` in place of the source's characters-per-second
`text_quality`.  Used to compare the specified weight with the implemented
one. -/
def specSegmentWeight (r : SegResult) : ℚ :=
  r.language_confidence * (1/2) + min (r.duration / 5) 1 * (3/10) +
    min ((wordCount r.text : ℚ) / r.duration) 1 * (1/5)

/-- An aligned output segment of `_create_final_aligned_segments`
(multilingual_pipeline.py lines 682-696). -/
structure AlignedSeg where
  start : ℚ
  stop : ℚ
  duration : ℚ
  text : String
  speaker : String
  language : String
  language_confidence : ℚ
  language_assignment_method : String
  segment_language : String
  segment_language_confidence : ℚ
  speaker_primary_language : String
  words : List String
  processing_status : String
deriving DecidableEq

/-- The per-result body of `_create_final_aligned_segments` (lines 658-696):
segment-level assignment when the segment's own confidence reaches
`min_language_confidence`, else speaker-level from the owning speaker's
profile, else the `("en", 0.5)` fallback.  A speaker absent from
`speaker_languages` yields `speaker_languages.get(speaker, {})`, whose
`.get` defaults are `'unknown'` and `0.0`. -/
def alignSegment (speakerLanguages : List (String × Profile)) (r : SegResult) : AlignedSeg :=
  let info := speakerLanguages.lookup r.speaker
  let spkLang := (info.map (fun p => p.language)).getD "unknown"
  let spkConf := (info.map (fun p => p.confidence)).getD 0
  if minLanguageConfidence ≤ r.language_confidence then
    ⟨r.start, r.stop, r.duration, r.text, r.speaker, r.language, r.language_confidence,
      "segment_level", r.language, r.language_confidence, spkLang, [], r.processing_status⟩
  else if minLanguageConfidence ≤ spkConf then
    ⟨r.start, r.stop, r.duration, r.text, r.speaker, spkLang, spkConf,
      "speaker_level", r.language, r.language_confidence, spkLang, [], r.processing_status⟩
  else
    ⟨r.start, r.stop, r.duration, r.text, r.speaker, "en", 1/2,
      "fallback", r.language, r.language_confidence, spkLang, [], r.processing_status⟩

/-- Stable insertion by a rational key (Python `list.sort(key=...)`). -/
def insertSortedBy {α : Type} (key : α → ℚ) (a : α) : List α → List α
  | [] => [a]
  | b :: bs => if key a ≤ key b then a :: b :: bs else b :: insertSortedBy key a bs

/-- Stable ascending sort by a rational key. -/
def pySortBy {α : Type} (key : α → ℚ) : List α → List α
  | [] => []
  | a :: as => insertSortedBy key a (pySortBy key as)

/-- `_create_final_aligned_segments` (multilingual_pipeline.py lines 649-701):
align every result, then sort by start time. -/
def createFinalAlignedSegments (results : List SegResult)
    (speakerLanguages : List (String × Profile)) : List AlignedSeg :=
  pySortBy (fun a => a.start) (results.map (alignSegment speakerLanguages))

/-- The dictionary returned by `_calculate_accuracy_metrics`
(multilingual_pipeline.py lines 787-796). -/
structure AccuracyMetrics where
  total_segments : ℕ
  successful_segments : ℕ
  failed_segments : ℕ
  success_rate : ℚ
  high_confidence_segments : ℕ
  high_confidence_rate : ℚ
  average_text_quality : ℚ
  estimated_accuracy : ℚ
deriving DecidableEq

/-- `_calculate_accuracy_metrics` (multilingual_pipeline.py lines 759-796).
Rates are fractions in `[0,1]` internally and reported scaled by 100; the
estimate is `(0.4 * success_rate + 0.4 * confidence_rate + 0.2 *
min(avg_text_quality / 3, 1)) * 100`, capped at `99.0`. -/
def calculateAccuracyMetrics (results : List SegResult) : AccuracyMetrics :=
  let total := results.length
  let succ := (results.filter (fun r => r.processing_status = "success")).length
  let hi := (results.filter (fun r => minLanguageConfidence ≤ r.language_confidence)).length
  let textQualities := (results.filter
      (fun r => r.processing_status = "success" ∧ 0 < r.duration)).map
      (fun r => (wordCount r.text : ℚ) / r.duration)
  let avgQ := if textQualities.length = 0 then 0 else textQualities.sum / (textQualities.length : ℚ)
  let successRate := if 0 < total then (succ : ℚ) / (total : ℚ) else 0
  let confidenceRate := if 0 < total then (hi : ℚ) / (total : ℚ) else 0
  let estimated := (successRate * (2/5) + confidenceRate * (2/5) + min (avgQ / 3) 1 * (1/5)) * 100
  ⟨total, succ, total - succ, successRate * 100, hi, confidenceRate * 100, avgQ, min estimated 99⟩

/-- `enumerate(zip(embeddings, voice_activity))` restricted to the frames with
`has_voice and embedding is not None` (speechbrain_engine.py lines 314-321),
carrying frame indices from `k` upward. -/
def voicedIdx {E : Type} (k : ℕ) : List (Option E × Bool) → List (ℕ × E)
  | [] => []
  | (oe, b) :: rest =>
    match b, oe with
    | true, some e => (k, e) :: voicedIdx (k + 1) rest
    | _, _ => voicedIdx (k + 1) rest

/-- The voiced frames with their indices. -/
def voicedWithIdx {E : Type} (embeddings : List (Option E)) (va : List Bool) : List (ℕ × E) :=
  voicedIdx 0 (embeddings.zip va)

/-- Label scattered onto a voiced frame index `v`: its cluster label, `-1`
when `v` carries no label (never the case for genuine voiced indices). -/
def nearestLabel (idxLab : List (ℕ × ℕ)) (v : ℕ) : ℤ :=
  match idxLab.lookup v with
  | some l => (l : ℤ)
  | none => -1

/-- Label of frame `i` after the scatter-and-fill of `_perform_clustering`
(lines 350-356): a voiced frame keeps its cluster label, a non-voiced frame
copies the label of the nearest voiced frame by index distance (`np.argmin`
takes the first minimum, i.e. the smaller index on ties); `-1` only when no
voiced frame exists at all. -/
def filledLabelAt (idxLab : List (ℕ × ℕ)) (vis : List ℕ) (i : ℕ) : ℤ :=
  match idxLab.lookup i with
  | some l => (l : ℤ)
  | none =>
    match pyMinBy (fun (v : ℕ) => ((v : ℤ) - (i : ℤ)).natAbs) vis with
    | some v => nearestLabel idxLab v
    | none => -1

/-- Ordered duplicate-free insertion, for `np.unique` (sorted distinct values). -/
def insUniqInt (x : ℤ) : List ℤ → List ℤ
  | [] => [x]
  | y :: ys => if x < y then x :: y :: ys else if x = y then y :: ys else y :: insUniqInt x ys

/-- `np.unique`: the distinct values in ascending order. -/
def sortedUniqInt : List ℤ → List ℤ
  | [] => []
  | x :: xs => insUniqInt x (sortedUniqInt xs)

/-- Position of `x` in `l` (the consecutive relabelling index of
`_perform_clustering` lines 358-364). -/
def idxOfInt : List ℤ → ℤ → ℕ
  | [], _ => 0
  | y :: ys, x => if x = y then 0 else idxOfInt ys x + 1

/-- The scatter-and-fill of `_perform_clustering` (lines 350-356): the label
array over all `n` frames, voiced frames holding their cluster label and
non-voiced frames back-filled via `_fill_nonvoiced_labels`. -/
def scatterFill (idxLab : List (ℕ × ℕ)) (vis : List ℕ) (n : ℕ) : List ℤ :=
  (List.range n).map (filledLabelAt idxLab vis)

/-- The consecutive renumbering of `_perform_clustering` (lines 358-364):
non-negative labels are renamed to their position in `np.unique`'s ascending
order of the used labels. -/
def relabelConsecutive (filled : List ℤ) : List ℤ :=
  filled.map (fun l =>
    if 0 ≤ l then (idxOfInt (sortedUniqInt (filled.filter (fun l' => 0 ≤ l'))) l : ℤ)
    else l)

/-- `_perform_clustering` (speechbrain_engine.py lines 305-370).  The
L2-normalization followed by `AgglomerativeClustering.fit_predict` is the
abstract `cluster` oracle and `_estimate_speakers` the abstract `estimate`
oracle; the `except` fallback to all-zero labels (lines 368-370) is not taken
by the modelled total oracles.  With no voiced embeddings the function returns
all-zero labels (lines 323-324); a requested cluster count of 1, or more
clusters than voiced embeddings, short-circuits to a single cluster
(lines 340-341); afterwards labels are scattered back, non-voiced frames are
back-filled from the nearest voiced frame, and the used labels are renamed to
consecutive integers in `np.unique`'s ascending order. -/
def performClustering {E : Type} (cluster : List E → List ℕ) (estimate : List E → ℕ)
    (embeddings : List (Option E)) (va : List Bool) (numSpeakers : Option ℕ) : List ℤ :=
  let voiced := voicedWithIdx embeddings va
  if voiced.length = 0 then List.replicate embeddings.length 0
  else
    let nClusters : ℕ :=
      match numSpeakers with
      | some k => k
      | none => estimate (voiced.map (fun p => p.2))
    let voicedLabels :=
      if nClusters = 1 ∨ voiced.length < nClusters then List.replicate voiced.length 0
      else cluster (voiced.map (fun p => p.2))
    relabelConsecutive (scatterFill ((voiced.map (fun p => p.1)).zip voicedLabels)
      (voiced.map (fun p => p.1)) embeddings.length)

/-- The number of distinct labels in a label array. -/
def distinctSpeakerCount (labels : List ℤ) : ℕ := labels.toFinset.card

/-- `SEGMENT_LENGTH = 1.5` (speechbrain_engine.py line 26). -/
def segmentLength : ℚ := 3/2

/-- `MIN_SEGMENT_DURATION = 0.3` of the SpeechBrain engine (line 29). -/
def sbMinSegmentDuration : ℚ := 3/10

/-- `f"SPEAKER_{label:02d}"`: zero-pad a single digit to width two. -/
def fmt02 (l : ℤ) : String := if 0 ≤ l ∧ l < 10 then "0" ++ toString l else toString l

/-- The speaker name of a cluster label. -/
def speakerName (l : ℤ) : String := "SPEAKER_" ++ fmt02 l

/-- A diarization segment dictionary of `_create_segments`
(speechbrain_engine.py lines 434-451). -/
structure DiarSeg where
  start : ℚ
  stop : ℚ
  speaker : String
  duration : ℚ
deriving DecidableEq

/-- The run-collapsing loop of `_create_segments` (lines 430-451): `cur` is the
current run's label, `segStart` its first frame's timestamp, `prevTs` the
previous frame's timestamp; a label change closes the run at
`previous timestamp + SEGMENT_LENGTH`. -/
def createSegmentsAux (cur : ℤ) (segStart prevTs : ℚ) : List (ℤ × ℚ) → List DiarSeg
  | [] => [⟨segStart, prevTs + segmentLength, speakerName cur,
      prevTs + segmentLength - segStart⟩]
  | (l, ts) :: rest =>
    if l = cur then createSegmentsAux cur segStart ts rest
    else
      ⟨segStart, prevTs + segmentLength, speakerName cur, prevTs + segmentLength - segStart⟩ ::
        createSegmentsAux l ts ts rest

/-- `_create_segments` (speechbrain_engine.py lines 421-453); labels and
timestamps are produced in lockstep by the embedding extraction, modelled by
zipping. -/
def createSegments (labels : List ℤ) (timestamps : List ℚ) : List DiarSeg :=
  match labels.zip timestamps with
  | [] => []
  | (l, ts) :: rest => createSegmentsAux l ts ts rest

/-- Stable insertion for a descending sort by duration
(`segments.sort(key=lambda x: x['duration'], reverse=True)`). -/
def insertByDurationDesc (s : DiarSeg) : List DiarSeg → List DiarSeg
  | [] => [s]
  | t :: ts => if t.duration < s.duration then s :: t :: ts else t :: insertByDurationDesc s ts

/-- Stable descending sort by duration. -/
def sortByDurationDesc : List DiarSeg → List DiarSeg
  | [] => []
  | s :: ss => insertByDurationDesc s (sortByDurationDesc ss)

/-- One step of the same-speaker merge loop of `_postprocess_segments`
(lines 468-477), accumulator reversed. -/
def mergeStep (acc : List DiarSeg) (seg : DiarSeg) : List DiarSeg :=
  match acc with
  | [] => [seg]
  | prev :: rest =>
    if prev.speaker = seg.speaker ∧ |prev.stop - seg.start| < 1/5 then
      { prev with stop := seg.stop, duration := seg.stop - prev.start } :: rest
    else seg :: prev :: rest

/-- `_postprocess_segments` (speechbrain_engine.py lines 455-479): drop
segments shorter than `MIN_SEGMENT_DURATION`; if nothing survives, keep the
longest half (at least one) of the duration-sorted segments; then merge
consecutive same-speaker segments whose boundary gap is below `0.2`. -/
def postprocessSegments (segments : List DiarSeg) : List DiarSeg :=
  if segments.isEmpty then segments
  else
    let filtered := segments.filter (fun s => sbMinSegmentDuration ≤ s.duration)
    let filtered2 :=
      if filtered.isEmpty then
        (sortByDurationDesc segments).take (max 1 (segments.length / 2))
      else filtered
    (filtered2.foldl mergeStep []).reverse

/-- A trivial clustering oracle over unit embeddings, for concrete runs. -/
def clusterStub : List Unit → List ℕ := fun _ => []

/-- A trivial speaker-count estimator, for concrete runs. -/
def estimateStub : List Unit → ℕ := fun _ => 1

/-- A clustering oracle assigning two voiced frames to two clusters. -/
def clusterPair : List Unit → List ℕ := fun _ => [0, 1]

/-- Detection attempts of the consensus example: two `"de"` detections with
confidences `0.8` and `0.9` and one `"en"` detection with confidence `0.95`. -/
def exDetections : List Detection := [⟨"de", 4/5, 0⟩, ⟨"de", 9/10, 1⟩, ⟨"en", 19/20, 2⟩]

/-- Two successful results of one speaker on which characters-per-second and
words-per-second weighting disagree about the primary language: the `"en"`
segment has sparse characters (`"hi"`, one word) and the `"fr"` segment dense
characters (`"abcdefghij"`, one word). -/
def exAggregate : List SegResult :=
  [⟨0, 0, 5, 5, "S0", "hi", "en", 9/10, "success", none⟩,
   ⟨1, 5, 10, 5, "S0", "abcdefghij", "fr", 4/5, "success", none⟩]

/-- The speaker-aggregation example of the specification, with concrete texts:
segment A `"en"`, confidence `0.9`, duration 6, ten words; segment B `"fr"`,
confidence `0.6`, duration 2, two words. -/
def exSpeakerAgg : List SegResult :=
  [⟨0, 0, 6, 6, "S0", "a b c d e f g h i j", "en", 9/10, "success", none⟩,
   ⟨1, 6, 8, 2, "S0", "ab cd", "fr", 3/5, "success", none⟩]

/-- Speaker profiles exercising the three alignment tiers. -/
def exProfiles : List (String × Profile) :=
  [("SPK_A", ⟨"de", 4/5, 3, 1⟩), ("SPK_B", ⟨"fr", 1/5, 1, 1⟩)]

/-- Segment results exercising the three alignment tiers: confident segment,
unconfident segment of a confident speaker, unconfident segment of an
unconfident speaker. -/
def exAlign : List SegResult :=
  [⟨0, 0, 2, 2, "SPK_A", "ok", "it", 9/10, "success", none⟩,
   ⟨1, 2, 4, 2, "SPK_A", "hm", "es", 1/10, "success", none⟩,
   ⟨2, 4, 6, 2, "SPK_B", "uh", "pt", 1/5, "success", none⟩]

/-- A single fully successful, confident, dense result (three words in one
second). -/
def exMetrics : List SegResult :=
  [⟨0, 0, 1, 1, "S0", "a b c", "en", 9/10, "success", none⟩]

/-- A failed result of speaker `"SPEAKER_00"`: its speaker appears in the
input of `_determine_speaker_languages` but owns no successful segment. -/
def exFailedResult : SegResult :=
  createFailedSegmentResult ⟨0, 1, 1, "SPEAKER_00", 3⟩ "oracle unavailable"

/-- A well-formed clean list: sorted, gapped, long segments, sequential ids. -/
def exFixed : List Seg :=
  [⟨0, 1, 1, "SPEAKER_00", 0⟩, ⟨2, 3, 1, "SPEAKER_01", 1⟩]

lemma overlapStep_inv (seg : Seg) (acc : List Seg)
    (hid : acc.map (fun s => s.segment_id) = (List.range acc.length).reverse)
    (hch : List.Chain' (fun a b => b.stop ≤ a.start) acc) :
    (overlapStep seg acc).1.map (fun s => s.segment_id) =
      (List.range (overlapStep seg acc).1.length).reverse ∧
    List.Chain' (fun a b => b.stop ≤ a.start) (overlapStep seg acc).1 := by
  match acc with
  | [] =>
    simp only [overlapStep]
    split
    · exact ⟨hid, hch⟩
    · simp [List.range_succ]
  | prev :: rest =>
    have hlen : (prev :: rest).length = rest.length + 1 := rfl
    simp only [overlapStep]
    split_ifs with h1 h2 h3 h4 h5
    · exact ⟨hid, hch⟩
    · -- small overlap: split at the midpoint
      rcases List.chain'_cons'.mp hch with ⟨hrel, hrest⟩
      refine ⟨?_, ?_⟩
      · simpa [List.range_succ] using hid
      · refine List.chain'_cons'.mpr ⟨?_, List.chain'_cons'.mpr ⟨?_, hrest⟩⟩
        · intro h hh
          simp only [List.head?_cons, Option.mem_def, Option.some.injEq] at hh
          subst hh
          simp
        · intro h hh
          exact hrel h hh
    · -- same speaker: merge into the previous segment
      rcases List.chain'_cons'.mp hch with ⟨hrel, hrest⟩
      refine ⟨?_, ?_⟩
      · simpa using hid
      · exact List.chain'_cons'.mpr ⟨fun h hh => hrel h hh, hrest⟩
    · -- different speakers, long remainder: trim the new segment's start
      refine ⟨?_, ?_⟩
      · simpa [List.range_succ] using hid
      · exact List.chain'_cons'.mpr ⟨fun h hh => by simp_all, hch⟩
    · exact ⟨hid, hch⟩
    · -- no overlap: append unchanged
      refine ⟨?_, ?_⟩
      · simpa [List.range_succ] using hid
      · refine List.chain'_cons'.mpr ⟨fun h hh => ?_, hch⟩
        simp only [List.head?_cons, Option.mem_def, Option.some.injEq] at hh
        subst hh
        simpa using le_of_not_lt h2

lemma overlapLoop_inv (l : List Seg) (acc post : List Seg)
    (hid : acc.map (fun s => s.segment_id) = (List.range acc.length).reverse)
    (hch : List.Chain' (fun a b => b.stop ≤ a.start) acc) :
    (overlapLoop acc post l).1.map (fun s => s.segment_id) =
      (List.range (overlapLoop acc post l).1.length).reverse ∧
    List.Chain' (fun a b => b.stop ≤ a.start) (overlapLoop acc post l).1 := by
  induction l generalizing acc post with
  | nil => exact ⟨hid, hch⟩
  | cons seg rest ih =>
    have h := overlapStep_inv seg acc hid hch
    exact ih (overlapStep seg acc).1 ((overlapStep seg acc).2 :: post) h.1 h.2

lemma overlapEval : createOverlapFreeSegments exOverlap =
    [⟨0, 1, 1, "SPEAKER_00", 0⟩,
     ⟨1, 199/200, -1/200, "SPEAKER_01", 1⟩,
     ⟨199/200, 3/2, 101/200, "SPEAKER_02", 2⟩] := by
  have h1 : ¬ ("SPEAKER_01" = "SPEAKER_00") := by simp
  have h2 : ¬ ("SPEAKER_02" = "SPEAKER_01") := by simp
  norm_num [h1, h2, createOverlapFreeSegments, createOverlapFreeSegmentsPost, overlapLoop,
    overlapStep, sortByStart, insertByStart, minSegmentDuration, overlapThreshold, exOverlap]

/-- Claim C1 (amended): for every input list, the output of
`_create_overlap_free_segments` carries `segment_id`s equal to the zero-based
output positions, and each output segment ends at or before the next one
starts; full sortedness by start time and pairwise non-overlap between
non-adjacent segments do not hold in general (see the counterexample). -/
theorem C1_overlap_invariant (raw : List Seg) :
    (createOverlapFreeSegments raw).map (fun s => s.segment_id) =
      List.range (createOverlapFreeSegments raw).length ∧
    List.Chain' (fun a b => a.stop ≤ b.start) (createOverlapFreeSegments raw) := by
  have h := overlapLoop_inv (sortByStart raw) [] [] (by simp) (by simp)
  have hdef : createOverlapFreeSegments raw =
      (overlapLoop [] [] (sortByStart raw)).1.reverse := rfl
  rw [hdef]
  refine ⟨?_, ?_⟩
  · rw [List.map_reverse, h.1, List.reverse_reverse, List.length_reverse]
  · exact List.chain'_reverse.mpr h.2

/-- Claim C1 (counterexample): on `exOverlap` the output of
`_create_overlap_free_segments` is neither pairwise non-overlapping nor
sorted by start time — the trim branch produces a sliver segment which the
following midpoint split pushes backwards past its own start. -/
theorem C1_counterexample :
    ¬ ((createOverlapFreeSegments exOverlap).Pairwise
        (fun a b => a.stop ≤ b.start ∨ b.stop ≤ a.start)) ∧
    ¬ ((createOverlapFreeSegments exOverlap).Sorted
        (fun a b => a.start ≤ b.start)) := by
  rw [overlapEval]
  constructor
  · intro hp
    rcases List.pairwise_cons.mp hp with ⟨h0, _⟩
    have h02 := h0 ⟨199/200, 3/2, 101/200, "SPEAKER_02", 2⟩ (by simp)
    rcases h02 with h' | h' <;> norm_num at h'
  · intro hs
    rcases List.pairwise_cons.mp hs with ⟨_, hs1⟩
    rcases List.pairwise_cons.mp hs1 with ⟨h1, _⟩
    have h12 := h1 ⟨199/200, 3/2, 101/200, "SPEAKER_02", 2⟩ (by simp)
    norm_num at h12

lemma insertByStart_of_le (s : Seg) (l : List Seg) (h : ∀ t ∈ l, s.start ≤ t.start) :
    insertByStart s l = s :: l := by
  cases l with
  | nil => rfl
  | cons t ts => simp [insertByStart, h t (by simp)]

lemma sortByStart_of_sorted (l : List Seg) (h : l.Sorted (fun a b => a.start ≤ b.start)) :
    sortByStart l = l := by
  induction l with
  | nil => rfl
  | cons s ss ih =>
    rcases List.pairwise_cons.mp h with ⟨hs, hss⟩
    rw [sortByStart, ih hss, insertByStart_of_le s ss hs]

lemma sorted_of_chain (l : List Seg) (hws : ∀ s ∈ l, s.start ≤ s.stop)
    (hch : List.Chain' (fun a b => a.stop ≤ b.start) l) :
    l.Sorted (fun a b => a.start ≤ b.start) := by
  induction l with
  | nil => simp
  | cons a t ih =>
    rcases List.chain'_cons'.mp hch with ⟨hrel, ht⟩
    have hst := ih (fun s hs => hws s (List.mem_cons_of_mem _ hs)) ht
    refine List.pairwise_cons.mpr ⟨?_, hst⟩
    intro c hc
    cases t with
    | nil => simp at hc
    | cons b t' =>
      have h1 : a.start ≤ b.start := le_trans (hws a (by simp)) (hrel b rfl)
      rcases List.mem_cons.mp hc with rfl | hc'
      · exact h1
      · exact le_trans h1 (List.rel_of_sorted_cons hst _ hc')

lemma chain_head_le (seg : Seg) (rest : List Seg) (hws : ∀ s ∈ rest, s.start ≤ s.stop)
    (hch : List.Chain' (fun a b => a.stop ≤ b.start) (seg :: rest)) :
    ∀ s ∈ rest, seg.stop ≤ s.start := by
  induction rest generalizing seg with
  | nil => simp
  | cons b t ih =>
    rcases List.chain'_cons'.mp hch with ⟨hrel, ht⟩
    have hsb : seg.stop ≤ b.start := hrel b rfl
    intro s hs
    rcases List.mem_cons.mp hs with rfl | hs'
    · exact hsb
    · exact le_trans (le_trans hsb (hws b (by simp)))
        (ih b (fun u hu => hws u (List.mem_cons_of_mem _ hu)) ht s hs')

lemma overlapLoop_id (l : List Seg) : ∀ (acc post : List Seg),
    (∀ s ∈ l, s.duration = s.stop - s.start ∧ minSegmentDuration ≤ s.duration) →
    List.Chain' (fun a b => a.stop ≤ b.start) l →
    l.map (fun s => s.segment_id) = List.range' acc.length l.length →
    (∀ h ∈ acc.head?, ∀ s ∈ l, h.stop ≤ s.start) →
    (overlapLoop acc post l).1 = l.reverse ++ acc := by
  induction l with
  | nil => intro acc post _ _ _ _; simp [overlapLoop]
  | cons seg rest ih =>
    intro acc post hdur hch hid hacc
    have hseg := hdur seg (by simp)
    have hws : ∀ s ∈ seg :: rest, s.start ≤ s.stop := by
      intro s hs
      have h := hdur s hs
      have h0 : (0 : ℚ) ≤ s.duration := le_trans (by norm_num [minSegmentDuration]) h.2
      rw [h.1] at h0
      linarith
    have hid' : seg.segment_id :: rest.map (fun s => s.segment_id) =
        acc.length :: List.range' (acc.length + 1) rest.length := by
      simpa [List.range'_succ] using hid
    injection hid' with hidseg hidrest
    have hstep : overlapStep seg acc = (seg :: acc, seg) := by
      cases acc with
      | nil =>
        simp only [overlapStep, if_neg (not_lt.mpr hseg.2)]
        have : seg.segment_id = 0 := by simpa using hidseg
        rw [← this]
      | cons prev racc =>
        have hnl : ¬ seg.start < prev.stop :=
          not_lt.mpr (hacc prev rfl seg (by simp))
        simp only [overlapStep, if_neg (not_lt.mpr hseg.2), if_neg hnl]
        have : seg.segment_id = racc.length + 1 := by simpa using hidseg
        rw [← this]
    have hrest := List.chain'_cons'.mp hch
    have hloop : (overlapLoop (seg :: acc) (seg :: post) rest).1 = rest.reverse ++ seg :: acc := by
      refine ih (seg :: acc) (seg :: post)
        (fun s hs => hdur s (List.mem_cons_of_mem _ hs)) hrest.2 ?_ ?_
      · simpa using hidrest
      · intro h hh s hs
        simp only [List.head?_cons, Option.mem_def, Option.some.injEq] at hh
        subst hh
        exact chain_head_le seg rest (fun u hu => hws u (List.mem_cons_of_mem _ hu)) hch s hs
    calc (overlapLoop acc post (seg :: rest)).1
        = (overlapLoop (seg :: acc) (seg :: post) rest).1 := by
          rw [overlapLoop, hstep]
      _ = rest.reverse ++ seg :: acc := hloop
      _ = (seg :: rest).reverse ++ acc := by simp

/-- Claim C5 (amended): a list that already satisfies the overlap-free shape —
consistent durations of at least `min_segment_duration`, each segment ending
at or before the next one starts, sequential zero-based `segment_id`s — is a
fixed point of `_create_overlap_free_segments`; on general inputs a second
application can differ from the first (see the counterexample), so the
function is not idempotent. -/
theorem C5_fixed_point (l : List Seg)
    (hdur : ∀ s ∈ l, s.duration = s.stop - s.start ∧ minSegmentDuration ≤ s.duration)
    (hch : List.Chain' (fun a b => a.stop ≤ b.start) l)
    (hid : l.map (fun s => s.segment_id) = List.range l.length) :
    createOverlapFreeSegments l = l := by
  have hws : ∀ s ∈ l, s.start ≤ s.stop := by
    intro s hs
    have h := hdur s hs
    have h0 : (0 : ℚ) ≤ s.duration := le_trans (by norm_num [minSegmentDuration]) h.2
    rw [h.1] at h0
    linarith
  have hsort : sortByStart l = l := sortByStart_of_sorted l (sorted_of_chain l hws hch)
  have hdef : createOverlapFreeSegments l = (overlapLoop [] [] (sortByStart l)).1.reverse := rfl
  rw [hdef, hsort, overlapLoop_id l [] [] hdur hch (by simpa [List.range_eq_range'] using hid)
    (by simp)]
  simp

/-- Claim C5 (counterexample): `_create_overlap_free_segments` is not
idempotent — applied to its own output on `exOverlap` it drops the
negative-length sliver segment and re-splits a boundary, changing the list. -/
theorem C5_counterexample :
    createOverlapFreeSegments (createOverlapFreeSegments exOverlap) ≠
      createOverlapFreeSegments exOverlap := by
  have h2 : createOverlapFreeSegments (createOverlapFreeSegments exOverlap) =
      [⟨0, 399/400, 399/400, "SPEAKER_00", 0⟩,
       ⟨399/400, 3/2, 201/400, "SPEAKER_02", 1⟩] := by
    rw [overlapEval]
    have h1 : ¬ ("SPEAKER_01" = "SPEAKER_00") := by simp
    have h2 : ¬ ("SPEAKER_02" = "SPEAKER_01") := by simp
    have h3 : ¬ ("SPEAKER_02" = "SPEAKER_00") := by simp
    norm_num [h1, h2, h3, createOverlapFreeSegments, createOverlapFreeSegmentsPost, overlapLoop,
      overlapStep, sortByStart, insertByStart, minSegmentDuration, overlapThreshold]
  rw [h2, overlapEval]
  intro hEq
  have := congrArg List.length hEq
  simp at this

/-- Claim C5 (witness): the fixed-point theorem applied to a concrete
well-formed clean list. -/
theorem C5_fixed_point_witness :
    (∀ s ∈ exFixed, s.duration = s.stop - s.start ∧ minSegmentDuration ≤ s.duration) ∧
    List.Chain' (fun a b => a.stop ≤ b.start) exFixed ∧
    createOverlapFreeSegments exFixed = exFixed := by
  have h1 : ∀ s ∈ exFixed, s.duration = s.stop - s.start ∧ minSegmentDuration ≤ s.duration := by
    intro s hs
    rcases List.mem_cons.mp hs with rfl | hs'
    · norm_num [minSegmentDuration]
    · rcases List.mem_cons.mp hs' with rfl | hs''
      · norm_num [minSegmentDuration]
      · simp at hs''
  have h2 : List.Chain' (fun (a b : Seg) => a.stop ≤ b.start) exFixed := by
    simp only [exFixed, List.chain'_cons, List.chain'_singleton, and_true]
    norm_num
  have h3 : exFixed.map (fun s => s.segment_id) = List.range exFixed.length := by
    simp [exFixed, List.range_succ]
  exact ⟨h1, h2, C5_fixed_point exFixed h1 h2 h3⟩

lemma overlapStep_post (seg : Seg) (acc : List Seg) :
    ((overlapStep seg acc).2).stop = seg.stop ∧
    ((overlapStep seg acc).2).speaker = seg.speaker := by
  cases acc with
  | nil =>
    simp only [overlapStep]
    split_ifs <;> simp
  | cons prev rest =>
    simp only [overlapStep]
    split_ifs <;> simp

lemma overlapLoop_post (l : List Seg) : ∀ (acc post : List Seg),
    ((overlapLoop acc post l).2).map (fun s => (s.stop, s.speaker)) =
      (l.map (fun s => (s.stop, s.speaker))).reverse ++
        post.map (fun s => (s.stop, s.speaker)) := by
  induction l with
  | nil => intro acc post; simp [overlapLoop]
  | cons seg rest ih =>
    intro acc post
    rw [overlapLoop, ih]
    have h := overlapStep_post seg acc
    simp [h.1, h.2]

/-- Claim C10 (amended): `_create_overlap_free_segments` is deterministic
(equal inputs yield equal outputs) and leaves the `end` and `speaker` fields
of every input segment dictionary unchanged, but it mutates the `start` and
`duration` fields of input segments in place in the small-overlap split and
the different-speaker trim branches, so the input list is not left intact
(see the counterexample). -/
theorem C10_frame (l : List Seg) :
    ((createOverlapFreeSegmentsPost l).2).map (fun s => (s.stop, s.speaker)) =
      (sortByStart l).map (fun s => (s.stop, s.speaker)) ∧
    ∀ l', l = l' → createOverlapFreeSegments l = createOverlapFreeSegments l' := by
  constructor
  · have hdef : (createOverlapFreeSegmentsPost l).2 =
        (overlapLoop [] [] (sortByStart l)).2.reverse := rfl
    rw [hdef, List.map_reverse, overlapLoop_post]
    simp
  · intro l' h
    rw [h]

/-- Claim C10 (counterexample): on `exOverlap` the call mutates the `start`
fields of the second and third input dictionaries (trim to the previous end,
then midpoint shift), so the input segments are not unchanged after the
call. -/
theorem C10_counterexample :
    sortByStart exOverlap = exOverlap ∧
    ((createOverlapFreeSegmentsPost exOverlap).2).map (fun s => s.start) = [0, 1, 199/200] ∧
    exOverlap.map (fun s => s.start) = [0, 13/25, 19/20] ∧
    ((createOverlapFreeSegmentsPost exOverlap).2).map (fun s => s.start) ≠
      exOverlap.map (fun s => s.start) := by
  have hsort : sortByStart exOverlap = exOverlap := by
    norm_num [sortByStart, insertByStart, exOverlap]
  have h1 : ¬ ("SPEAKER_01" = "SPEAKER_00") := by simp
  have h2 : ¬ ("SPEAKER_02" = "SPEAKER_01") := by simp
  have hpost : ((createOverlapFreeSegmentsPost exOverlap).2).map (fun s => s.start) =
      [0, 1, 199/200] := by
    norm_num [h1, h2, createOverlapFreeSegmentsPost, overlapLoop, overlapStep, sortByStart,
      insertByStart, minSegmentDuration, overlapThreshold, exOverlap]
  have hpre : exOverlap.map (fun s => s.start) = [0, 13/25, 19/20] := by
    norm_num [exOverlap]
  refine ⟨hsort, hpost, hpre, ?_⟩
  rw [hpost, hpre]
  intro h
  injection h with _ h'
  injection h' with h'' _
  norm_num at h''

/-- Claim C10 (witness): the determinism part of the frame theorem applied at
a concrete input. -/
theorem C10_frame_witness :
    ((createOverlapFreeSegmentsPost exFixed).2).map (fun s => (s.stop, s.speaker)) =
      (sortByStart exFixed).map (fun s => (s.stop, s.speaker)) ∧
    createOverlapFreeSegments exFixed = createOverlapFreeSegments exFixed :=
  ⟨(C10_frame exFixed).1, (C10_frame exFixed).2 exFixed rfl⟩

lemma pyMaxBy_isSome {α β : Type} [LinearOrder β] (f : α → β) (l : List α) (hne : l ≠ []) :
    ∃ a, pyMaxBy f l = some a := by
  cases l with
  | nil => exact absurd rfl hne
  | cons x xs =>
    rw [pyMaxBy]
    rcases pyMaxBy f xs with _ | b
    · exact ⟨x, rfl⟩
    · simp only
      split_ifs
      · exact ⟨b, rfl⟩
      · exact ⟨x, rfl⟩

lemma pyMaxBy_mem {α β : Type} [LinearOrder β] (f : α → β) (l : List α) (a : α)
    (h : pyMaxBy f l = some a) : a ∈ l := by
  induction l generalizing a with
  | nil => simp [pyMaxBy] at h
  | cons x xs ih =>
    rw [pyMaxBy] at h
    rcases hxs : pyMaxBy f xs with _ | b
    · rw [hxs] at h
      simp at h
      simp [h]
    · rw [hxs] at h
      simp only at h
      split_ifs at h with hf
      · exact List.mem_cons_of_mem _ (ih a (hxs.trans h))
      · simp at h
        simp [h]

lemma pyMaxBy_le {α β : Type} [LinearOrder β] (f : α → β) (l : List α) (a : α)
    (h : pyMaxBy f l = some a) : ∀ b ∈ l, f b ≤ f a := by
  induction l generalizing a with
  | nil => simp [pyMaxBy] at h
  | cons x xs ih =>
    rw [pyMaxBy] at h
    rcases hxs : pyMaxBy f xs with _ | b
    · rw [hxs] at h
      simp at h
      subst h
      intro b hb
      rcases List.mem_cons.mp hb with rfl | hb'
      · exact le_refl _
      · exfalso
        obtain ⟨c, hc⟩ := pyMaxBy_isSome f xs (List.ne_nil_of_mem hb')
        rw [hc] at hxs
        exact Option.noConfusion hxs
    · rw [hxs] at h
      simp only at h
      split_ifs at h with hf
      · have hba := hxs.trans h
        intro c hc
        rcases List.mem_cons.mp hc with rfl | hc'
        · injection h with h'
          exact le_of_lt (h' ▸ hf)
        · exact ih a hba c hc'
      · simp at h
        subst h
        intro c hc
        rcases List.mem_cons.mp hc with rfl | hc'
        · exact le_refl _
        · exact le_trans (ih b hxs c hc') (not_lt.mp hf)

lemma mem_firstUniq {α : Type} [DecidableEq α] (l : List α) (x : α) :
    x ∈ firstUniq l ↔ x ∈ l := by
  induction l with
  | nil => simp [firstUniq]
  | cons a as ih =>
    by_cases hxa : x = a
    · subst hxa
      simp [firstUniq]
    · simp [firstUniq, hxa, ih]

lemma countOf_pos_iff (ls : List String) (x : String) : 0 < countOf ls x ↔ x ∈ ls := by
  induction ls with
  | nil => simp [countOf]
  | cons a as ih =>
    by_cases hxa : a = x
    · subst hxa
      simp [countOf, List.filter_cons]
    · simp [countOf, List.filter_cons, hxa, Ne.symm hxa] at ih ⊢
      exact ih

lemma countOf_add_le (ls : List String) (a b : String) (hab : a ≠ b) :
    countOf ls a + countOf ls b ≤ ls.length := by
  induction ls with
  | nil => simp [countOf]
  | cons x xs ih =>
    simp only [countOf, List.filter_cons, List.length_cons] at ih ⊢
    by_cases hxa : x = a
    · subst hxa
      simp [Ne.symm (fun h => hab h.symm), hab]
      omega
    · by_cases hxb : x = b
      · subst hxb
        simp [hxa]
        omega
      · simp [hxa, hxb]
        omega

lemma mostCommon_spec (ls : List String) (hne : ls ≠ []) :
    ∃ l c, mostCommon ls = some (l, c) ∧ c = countOf ls l ∧ l ∈ ls ∧
      ∀ x ∈ ls, countOf ls x ≤ c := by
  have hfu : firstUniq ls ≠ [] := by
    cases ls with
    | nil => exact absurd rfl hne
    | cons a as => simp [firstUniq]
  have hpairs : (firstUniq ls).map (fun x => (x, countOf ls x)) ≠ [] := by
    simpa using hfu
  obtain ⟨p, hp⟩ := pyMaxBy_isSome (fun q => q.2) _ hpairs
  obtain ⟨x, hx, hxp⟩ := List.mem_map.mp (pyMaxBy_mem _ _ _ hp)
  refine ⟨x, countOf ls x, ?_, rfl, (mem_firstUniq ls x).mp hx, ?_⟩
  · rw [mostCommon, hp, ← hxp]
  · intro y hy
    have hyp : (y, countOf ls y) ∈ (firstUniq ls).map (fun x => (x, countOf ls x)) :=
      List.mem_map.mpr ⟨y, (mem_firstUniq ls y).mpr hy, rfl⟩
    have := pyMaxBy_le (fun q : String × ℕ => q.2) _ p hp _ hyp
    simpa [← hxp] using this

lemma majority_unique (ls : List String) (lang x : String)
    (hmaj : ls.length < 2 * countOf ls lang) (hx : countOf ls lang ≤ countOf ls x) :
    x = lang := by
  by_contra hne
  have hsum := countOf_add_le ls lang x (fun h => hne h.symm)
  omega

lemma determineConsensus_unfold (dets : List Detection) (l : String) (c : ℕ)
    (h : mostCommon (dets.map (fun d => d.language)) = some (l, c)) :
    determineConsensus dets =
      if (consensusSamples + 1) / 2 ≤ c then
        (l, (((dets.filter (fun d => d.language = l)).map (fun d => d.confidence)).sum) /
          (((dets.filter (fun d => d.language = l)).length : ℚ)))
      else
        match pyMaxBy (fun d => d.confidence) dets with
        | none => ("en", 0)
        | some best => (best.language, best.confidence) := by
  rw [determineConsensus, h]

/-- Claim C2: for every non-empty list of at most `consensus_samples = 3`
detection attempts, a language reported by a strict majority of the attempts
becomes the consensus language with the arithmetic mean of the agreeing
confidences; with no strict majority the consensus is the (first) attempt of
maximal confidence.  The source's threshold `count >= (consensus_samples+1)//2`
coincides with the strict-majority rule for every list of 1 to 3 gathered
attempts. -/
theorem C2_consensus (dets : List Detection) (hne : dets ≠ []) (hlen : dets.length ≤ 3) :
    (∀ lang, dets.length < 2 * countOf (dets.map (fun d => d.language)) lang →
      determineConsensus dets =
        (lang, (((dets.filter (fun d => d.language = lang)).map (fun d => d.confidence)).sum) /
          (((dets.filter (fun d => d.language = lang)).length : ℚ)))) ∧
    ((∀ lang ∈ dets.map (fun d => d.language),
        2 * countOf (dets.map (fun d => d.language)) lang ≤ dets.length) →
      ((determineConsensus dets).1, (determineConsensus dets).2) ∈
        dets.map (fun d => (d.language, d.confidence)) ∧
      ∀ d ∈ dets, d.confidence ≤ (determineConsensus dets).2) := by
  have hLne : dets.map (fun d => d.language) ≠ [] := by simpa using hne
  have hLlen : (dets.map (fun d => d.language)).length = dets.length := by simp
  constructor
  · intro lang hmaj
    have hmaj' : (dets.map (fun d => d.language)).length <
        2 * countOf (dets.map (fun d => d.language)) lang := by
      rw [hLlen]
      exact hmaj
    obtain ⟨l, c, hmc, hc, hl, hbound⟩ := mostCommon_spec _ hLne
    have hlangmem : lang ∈ dets.map (fun d => d.language) := by
      rw [← countOf_pos_iff]
      omega
    have hle : countOf (dets.map (fun d => d.language)) lang ≤ c := hbound lang hlangmem
    have hlc : l = lang := majority_unique _ lang l hmaj' (by omega)
    subst hlc
    by_cases hn2 : 2 ≤ dets.length
    · have hth : (consensusSamples + 1) / 2 ≤ c := by
        simp only [consensusSamples]
        omega
      rw [determineConsensus_unfold dets l c hmc, if_pos hth]
    · have h1 : dets.length = 1 := by
        have : dets.length ≠ 0 := fun h => hne (List.length_eq_zero.mp h)
        omega
      rcases dets with _ | ⟨d, rest⟩
      · exact absurd rfl hne
      · have hrest : rest = [] := by
          simp only [List.length_cons] at h1
          exact List.length_eq_zero.mp (by omega)
        subst hrest
        simp only [List.map_cons, List.map_nil] at hmaj'
        have hld : l = d.language := by
          have hpos : 0 < countOf [d.language] l := by
            have hll : ([d.language] : List String).length = 1 := rfl
            omega
          simpa using (countOf_pos_iff [d.language] l).mp hpos
        subst hld
        simp [determineConsensus, mostCommon, firstUniq, countOf, pyMaxBy, consensusSamples,
          List.filter_cons]
  · intro hnomaj
    obtain ⟨l, c, hmc, hc, hl, hbound⟩ := mostCommon_spec _ hLne
    have hcle : c ≤ 1 := by
      have := hnomaj l hl
      omega
    have hth : ¬ ((consensusSamples + 1) / 2 ≤ c) := by
      simp only [consensusSamples]
      omega
    obtain ⟨best, hbest⟩ := pyMaxBy_isSome (fun d => d.confidence) dets hne
    have hres : determineConsensus dets = (best.language, best.confidence) := by
      rw [determineConsensus_unfold dets l c hmc, if_neg hth, hbest]
    rw [hres]
    exact ⟨List.mem_map.mpr ⟨best, pyMaxBy_mem _ _ _ hbest, rfl⟩,
      pyMaxBy_le (fun d => d.confidence) dets best hbest⟩

/-- Claim C2 (witness): the specification's own instance — attempts
`("de", 0.8)`, `("de", 0.9)`, `("en", 0.95)` yield consensus `("de", 0.85)`;
the majority overrides the higher single confidence. -/
theorem C2_consensus_witness :
    exDetections ≠ [] ∧ exDetections.length ≤ 3 ∧
    determineConsensus exDetections = ("de", 17/20) := by
  have hde : ¬ ("en" = "de") := by simp
  have hmaj : exDetections.length < 2 * countOf (exDetections.map (fun d => d.language)) "de" := by
    norm_num [hde, exDetections, countOf, List.filter_cons]
  have h := (C2_consensus exDetections (by simp [exDetections]) (by simp [exDetections])).1
    "de" hmaj
  refine ⟨by simp [exDetections], by simp [exDetections], ?_⟩
  rw [h]
  norm_num [hde, exDetections, List.filter_cons]

lemma mem_insertSortedBy {α : Type} (key : α → ℚ) (a x : α) (l : List α) :
    x ∈ insertSortedBy key a l ↔ x = a ∨ x ∈ l := by
  induction l with
  | nil => simp [insertSortedBy]
  | cons b bs ih =>
    rw [insertSortedBy]
    split_ifs
    · simp
    · simp [ih, List.mem_cons]
      tauto

lemma mem_pySortBy {α : Type} (key : α → ℚ) (l : List α) (x : α) :
    x ∈ pySortBy key l ↔ x ∈ l := by
  induction l with
  | nil => simp [pySortBy]
  | cons a as ih => simp [pySortBy, mem_insertSortedBy, ih]

lemma lookup_mem {α β : Type} [BEq α] (l : List (α × β)) (a : α) (b : β)
    (h : l.lookup a = some b) : ∃ k, (k, b) ∈ l := by
  induction l with
  | nil => simp [List.lookup] at h
  | cons q qs ih =>
    rcases q with ⟨k, v⟩
    rw [List.lookup] at h
    rcases hbeq : (a == k) with _ | _
    · rw [hbeq] at h
      obtain ⟨k', hk'⟩ := ih h
      exact ⟨k', List.mem_cons_of_mem _ hk'⟩
    · rw [hbeq] at h
      simp only [Option.some.injEq] at h
      exact ⟨k, by simp [h]⟩

lemma profile_confidence_bound (profiles : List (String × Profile))
    (hprof : ∀ p ∈ profiles, 0 ≤ p.2.confidence ∧ p.2.confidence ≤ 1) (spk : String) :
    0 ≤ ((profiles.lookup spk).map (fun p => p.confidence)).getD 0 ∧
    ((profiles.lookup spk).map (fun p => p.confidence)).getD 0 ≤ 1 := by
  rcases hl : profiles.lookup spk with _ | p
  · simp
  · obtain ⟨k, hk⟩ := lookup_mem profiles spk p hl
    simpa using hprof (k, p) hk

/-- Claim C4: the Final Aligner applies the three-tier decision rule in
priority order — segment-level language when the segment's own confidence
reaches `min_language_confidence`, else the owning speaker's primary language
when the speaker profile's confidence reaches it, else the `("en", 0.5)`
fallback — and, whenever all segment and profile confidences lie in `[0,1]`,
every aligned output segment has a final confidence in `[0,1]` and a final
language drawn from its own detection, its speaker's profile, or the
fallback. -/
theorem C4_final_alignment (results : List SegResult) (profiles : List (String × Profile))
    (hseg : ∀ r ∈ results, 0 ≤ r.language_confidence ∧ r.language_confidence ≤ 1)
    (hprof : ∀ p ∈ profiles, 0 ≤ p.2.confidence ∧ p.2.confidence ≤ 1) :
    (∀ r ∈ results,
      (minLanguageConfidence ≤ r.language_confidence →
        (alignSegment profiles r).language = r.language ∧
        (alignSegment profiles r).language_confidence = r.language_confidence ∧
        (alignSegment profiles r).language_assignment_method = "segment_level") ∧
      (r.language_confidence < minLanguageConfidence →
        minLanguageConfidence ≤ ((profiles.lookup r.speaker).map (fun p => p.confidence)).getD 0 →
        (alignSegment profiles r).language =
          ((profiles.lookup r.speaker).map (fun p => p.language)).getD "unknown" ∧
        (alignSegment profiles r).language_confidence =
          ((profiles.lookup r.speaker).map (fun p => p.confidence)).getD 0 ∧
        (alignSegment profiles r).language_assignment_method = "speaker_level") ∧
      (r.language_confidence < minLanguageConfidence →
        ((profiles.lookup r.speaker).map (fun p => p.confidence)).getD 0 < minLanguageConfidence →
        (alignSegment profiles r).language = "en" ∧
        (alignSegment profiles r).language_confidence = 1/2 ∧
        (alignSegment profiles r).language_assignment_method = "fallback")) ∧
    (∀ a ∈ createFinalAlignedSegments results profiles,
      (0 ≤ a.language_confidence ∧ a.language_confidence ≤ 1) ∧
      (a.language = a.segment_language ∨ a.language = a.speaker_primary_language ∨
        a.language = "en")) := by
  constructor
  · intro r _
    refine ⟨?_, ?_, ?_⟩
    · intro h1
      simp [alignSegment, h1]
    · intro h1 h2
      simp [alignSegment, not_le.mpr h1, h2]
    · intro h1 h2
      simp [alignSegment, not_le.mpr h1, not_le.mpr h2]
  · intro a ha
    rw [createFinalAlignedSegments, mem_pySortBy] at ha
    obtain ⟨r, hr, rfl⟩ := List.mem_map.mp ha
    have hrb := hseg r hr
    have hpb := profile_confidence_bound profiles hprof r.speaker
    rw [alignSegment]
    split_ifs with h1 h2
    · exact ⟨hrb, Or.inl rfl⟩
    · exact ⟨hpb, Or.inr (Or.inl rfl)⟩
    · refine ⟨⟨by norm_num, by norm_num⟩, Or.inr (Or.inr rfl)⟩

/-- Claim C4 (witness): the aligner theorem applied to three concrete results
exercising the three tiers. -/
theorem C4_final_alignment_witness :
    (∀ r ∈ exAlign, 0 ≤ r.language_confidence ∧ r.language_confidence ≤ 1) ∧
    (∀ p ∈ exProfiles, 0 ≤ p.2.confidence ∧ p.2.confidence ≤ 1) ∧
    (∀ a ∈ createFinalAlignedSegments exAlign exProfiles,
      (0 ≤ a.language_confidence ∧ a.language_confidence ≤ 1) ∧
      (a.language = a.segment_language ∨ a.language = a.speaker_primary_language ∨
        a.language = "en")) := by
  have h1 : ∀ r ∈ exAlign, 0 ≤ r.language_confidence ∧ r.language_confidence ≤ 1 := by
    intro r hr
    fin_cases hr <;> norm_num
  have h2 : ∀ p ∈ exProfiles, 0 ≤ p.2.confidence ∧ p.2.confidence ≤ 1 := by
    intro p hp
    fin_cases hp <;> norm_num
  exact ⟨h1, h2, (C4_final_alignment exAlign exProfiles h1 h2).2⟩

/-- Claim C6 (amended): a segment whose extracted audio slice is shorter than
`0.3s * 16000 = 4800` samples is never passed to the transcription oracle and
yields the failed placeholder of `_create_failed_segment_result` — whose
`processing_status` is `'failed'` (not `'too_short'`; `'too_short'` only
appears in the `error` field) and whose `text` is the non-empty string
`'[Processing failed: too_short]'` rather than empty text. -/
theorem C6_too_short (n : ℤ) (oracle oracle2 : Seg → SegResult) (seg : Seg)
    (h : sliceLen n seg < 4800) :
    processOneSegment n oracle seg = createFailedSegmentResult seg "too_short" ∧
    (processOneSegment n oracle seg).processing_status = "failed" ∧
    (processOneSegment n oracle seg).error = some "too_short" ∧
    (processOneSegment n oracle seg).text = "[Processing failed: too_short]" ∧
    processOneSegment n oracle seg = processOneSegment n oracle2 seg := by
  have hs : ("[Processing failed: " ++ "too_short" ++ "]" : String) =
      "[Processing failed: too_short]" := rfl
  simp [processOneSegment, h, createFailedSegmentResult, hs]

/-- Claim C6 (counterexample): on a `0.2s` slice the result's
`processing_status` is `'failed'`, not `'too_short'`, and its text is the
placeholder message, not the empty string — contradicting the claimed
`too_short` status with empty-text placeholder. -/
theorem C6_counterexample :
    (processOneSegment 16000 dummyOracle shortSeg).processing_status = "failed" ∧
    (processOneSegment 16000 dummyOracle shortSeg).processing_status ≠ "too_short" ∧
    (processOneSegment 16000 dummyOracle shortSeg).text = "[Processing failed: too_short]" ∧
    (processOneSegment 16000 dummyOracle shortSeg).text ≠ "" := by
  have hs : ("[Processing failed: " ++ "too_short" ++ "]" : String) =
      "[Processing failed: too_short]" := rfl
  have he : processOneSegment 16000 dummyOracle shortSeg =
      createFailedSegmentResult shortSeg "too_short" := by
    norm_num [processOneSegment, sliceLen, startSample, endSample, shortSeg]
  rw [he]
  exact ⟨rfl, by simp [createFailedSegmentResult], hs,
    by simp [createFailedSegmentResult, hs]⟩

/-- Claim C6 (witness): the too-short theorem applied to the concrete `0.2s`
segment with a concrete oracle. -/
theorem C6_too_short_witness :
    sliceLen 16000 shortSeg < 4800 ∧
    processOneSegment 16000 dummyOracle shortSeg =
      createFailedSegmentResult shortSeg "too_short" := by
  have h : sliceLen 16000 shortSeg < 4800 := by
    norm_num [sliceLen, startSample, endSample, shortSeg]
  exact ⟨h, (C6_too_short 16000 dummyOracle dummyOracle shortSeg h).1⟩

/-- Claim C7: evaluation of `_determine_speaker_languages` at the failing
input — a single failed result of speaker `SPEAKER_00`.  The speaker appears
in the segment list, yet the returned map is empty: the `defaultdict` only
acquires keys from successfully processed results, so the fallback profile
`("en", 0, 0, 0)` coded at lines 601-608 is unreachable and the speaker is
absent from the map, contradicting the claim (and the dead fallback branch
shows the claim matches the code's own intent). -/
theorem C7_dropped_speaker :
    exFailedResult.speaker = "SPEAKER_00" ∧
    exFailedResult.processing_status = "failed" ∧
    determineSpeakerLanguages [exFailedResult] = [] := by
  refine ⟨rfl, rfl, ?_⟩
  simp [determineSpeakerLanguages, speakersOf, successFilter, firstUniq, exFailedResult,
    createFailedSegmentResult, List.filter_cons]

/-- Claim C9: the Accuracy Estimator reports
`min(100 * (0.4 * success_rate + 0.4 * high_confidence_rate +
0.2 * min(avg_text_quality / 3, 1)), 99)`; the estimate never exceeds `99`,
and a run with every segment successful and high-confidence and average text
quality at least 3 words per second reports exactly `99`, never `100`. -/
theorem C9_accuracy_estimate (results : List SegResult) :
    (calculateAccuracyMetrics results).estimated_accuracy =
      min (((if 0 < results.length then
            ((results.filter (fun r => r.processing_status = "success")).length : ℚ) /
              (results.length : ℚ) else 0) * (2/5) +
          (if 0 < results.length then
            ((results.filter
                (fun r => minLanguageConfidence ≤ r.language_confidence)).length : ℚ) /
              (results.length : ℚ) else 0) * (2/5) +
          min ((calculateAccuracyMetrics results).average_text_quality / 3) 1 * (1/5)) * 100)
        99 ∧
    (calculateAccuracyMetrics results).estimated_accuracy ≤ 99 ∧
    (0 < results.length →
      (∀ r ∈ results, r.processing_status = "success") →
      (∀ r ∈ results, minLanguageConfidence ≤ r.language_confidence) →
      3 ≤ (calculateAccuracyMetrics results).average_text_quality →
      (calculateAccuracyMetrics results).estimated_accuracy = 99) := by
  have hf : (calculateAccuracyMetrics results).estimated_accuracy =
      min (((if 0 < results.length then
            ((results.filter (fun r => r.processing_status = "success")).length : ℚ) /
              (results.length : ℚ) else 0) * (2/5) +
          (if 0 < results.length then
            ((results.filter
                (fun r => minLanguageConfidence ≤ r.language_confidence)).length : ℚ) /
              (results.length : ℚ) else 0) * (2/5) +
          min ((calculateAccuracyMetrics results).average_text_quality / 3) 1 * (1/5)) * 100)
        99 := rfl
  refine ⟨hf, le_of_eq_of_le hf (min_le_right _ _), ?_⟩
  intro h0 hs hh ha
  have hne : (results.length : ℚ) ≠ 0 := Nat.cast_ne_zero.mpr h0.ne'
  rw [hf, List.filter_eq_self.mpr (fun r hr => decide_eq_true (hs r hr)),
    List.filter_eq_self.mpr (fun r hr => decide_eq_true (hh r hr))]
  simp only [if_pos h0, div_self hne, min_eq_right (by linarith :
    (1 : ℚ) ≤ (calculateAccuracyMetrics results).average_text_quality / 3)]
  norm_num

/-- Claim C9 (witness): the estimator theorem applied to one fully
successful, confident, three-words-per-second run, reporting exactly `99`. -/
theorem C9_accuracy_estimate_witness :
    0 < exMetrics.length ∧
    (∀ r ∈ exMetrics, r.processing_status = "success") ∧
    (∀ r ∈ exMetrics, minLanguageConfidence ≤ r.language_confidence) ∧
    3 ≤ (calculateAccuracyMetrics exMetrics).average_text_quality ∧
    (calculateAccuracyMetrics exMetrics).estimated_accuracy = 99 := by
  have h0 : 0 < exMetrics.length := by simp [exMetrics]
  have hs : ∀ r ∈ exMetrics, r.processing_status = "success" := by
    intro r hr
    fin_cases hr
    rfl
  have hh : ∀ r ∈ exMetrics, minLanguageConfidence ≤ r.language_confidence := by
    intro r hr
    fin_cases hr
    norm_num [minLanguageConfidence]
  have ha : 3 ≤ (calculateAccuracyMetrics exMetrics).average_text_quality := by
    have hw : ((wordCount "a b c" : ℕ) : ℚ) = 3 := by
      norm_num [show wordCount "a b c" = 3 from rfl]
    norm_num [hw, calculateAccuracyMetrics, exMetrics, List.filter_cons]
  exact ⟨h0, hs, hh, ha, (C9_accuracy_estimate exMetrics).2.2 h0 hs hh ha⟩

lemma segWeight_eq (r : SegResult) : segWeight r = dataWeight (dataOf r) := rfl

lemma firstUniq_append_not_mem {α : Type} [DecidableEq α] (l : List α) (x : α) (hx : x ∉ l) :
    firstUniq (l ++ [x]) = firstUniq l ++ [x] := by
  induction l with
  | nil => simp [firstUniq]
  | cons a as ih =>
    have hxa : x ≠ a := fun h => hx (h ▸ List.mem_cons_self a as)
    have hxas : x ∉ as := fun h => hx (List.mem_cons_of_mem _ h)
    simp only [List.cons_append, firstUniq, List.append_eq]
    rw [ih hxas]
    simp [List.filter_append, hxa]

lemma firstUniq_append_mem {α : Type} [DecidableEq α] (l : List α) (x : α) (hx : x ∈ l) :
    firstUniq (l ++ [x]) = firstUniq l := by
  induction l with
  | nil => simp at hx
  | cons a as ih =>
    by_cases hxa : x = a
    · subst hxa
      by_cases hxas : x ∈ as
      · simp only [List.cons_append, firstUniq, List.append_eq]
        rw [ih hxas]
      · simp only [List.cons_append, firstUniq, List.append_eq]
        rw [firstUniq_append_not_mem as x hxas]
        simp [List.filter_append]
    · have hxas : x ∈ as := by
        rcases List.mem_cons.mp hx with h | h
        · exact absurd h hxa
        · exact h
      simp only [List.cons_append, firstUniq, List.append_eq]
      rw [ih hxas]

lemma filter_lang_nil (p : List LangData) (x : String)
    (hx : x ∉ p.map (fun d => d.language)) :
    p.filter (fun d => d.language = x) = [] := by
  induction p with
  | nil => rfl
  | cons d ds ih =>
    simp only [List.map_cons, List.mem_cons, not_or] at hx
    obtain ⟨hdx, hds⟩ := hx
    simp only [List.filter_cons, decide_eq_true_eq]
    rw [if_neg (by simpa using fun h => hdx h.symm)]
    exact ih hds

lemma addScore_scoresClosed (p : List LangData) (d : LangData) :
    addScore (scoresClosed p) d = scoresClosed (p ++ [d]) := by
  have hmapapp : (p ++ [d]).map (fun d' => d'.language) =
      p.map (fun d' => d'.language) ++ [d.language] := by simp
  by_cases hmem : d.language ∈ p.map (fun d' => d'.language)
  · have hany : (scoresClosed p).any (fun q => q.1 = d.language) = true := by
      rw [List.any_eq_true]
      refine ⟨(d.language,
        ((p.filter (fun d' => d'.language = d.language)).map dataWeight).sum,
        (p.filter (fun d' => d'.language = d.language)).length),
          List.mem_map.mpr ⟨d.language, (mem_firstUniq _ _).mpr hmem, rfl⟩, by simp⟩
    rw [addScore, if_pos hany, scoresClosed, scoresClosed, hmapapp,
      firstUniq_append_mem _ _ hmem, List.map_map]
    refine List.map_congr_left ?_
    intro x hx
    by_cases hxd : x = d.language
    · subst hxd
      simp only [Function.comp_apply, if_pos rfl]
      simp [List.filter_append, List.filter_cons]
    · simp only [Function.comp_apply]
      rw [if_neg hxd]
      have hdx : ¬ (d.language = x) := fun h => hxd h.symm
      simp [List.filter_append, List.filter_cons, hdx]
  · have hany : ¬ ((scoresClosed p).any (fun q => q.1 = d.language) = true) := by
      rw [List.any_eq_true]
      rintro ⟨q, hq, hq1⟩
      obtain ⟨x, hx, rfl⟩ := List.mem_map.mp hq
      have hxq : x = d.language := by simpa using of_decide_eq_true hq1
      exact hmem (hxq ▸ (mem_firstUniq _ _).mp hx)
    rw [addScore, if_neg hany, scoresClosed, scoresClosed, hmapapp,
      firstUniq_append_not_mem _ _ hmem, List.map_append]
    congr 1
    · refine List.map_congr_left ?_
      intro x hx
      have hdx : ¬ (d.language = x) := by
        intro h
        exact hmem (h ▸ (mem_firstUniq _ _).mp hx)
      simp [List.filter_append, List.filter_cons, hdx]
    · simp only [List.map_cons, List.map_nil]
      rw [List.filter_append, filter_lang_nil p d.language hmem]
      simp [List.filter_cons]

lemma langScores_eq (data : List LangData) : langScores data = scoresClosed data := by
  suffices h : ∀ (suffix p : List LangData),
      suffix.foldl addScore (scoresClosed p) = scoresClosed (p ++ suffix) by
    have h0 := h data []
    simpa [langScores, scoresClosed, firstUniq] using h0
  intro suffix
  induction suffix with
  | nil => intro p; simp
  | cons d ds ih =>
    intro p
    rw [List.foldl_cons, addScore_scoresClosed, ih (p ++ [d])]
    simp

lemma mem_scoresClosed (data : List LangData) (q : String × ℚ × ℕ)
    (hq : q ∈ scoresClosed data) :
    q.2.1 = ((data.filter (fun d => d.language = q.1)).map dataWeight).sum ∧
    q.2.2 = (data.filter (fun d => d.language = q.1)).length ∧
    q.1 ∈ data.map (fun d => d.language) := by
  obtain ⟨x, hx, rfl⟩ := List.mem_map.mp hq
  exact ⟨rfl, rfl, (mem_firstUniq _ _).mp hx⟩

lemma scoresClosed_mem_of_lang (data : List LangData) (x : String)
    (hx : x ∈ data.map (fun d => d.language)) :
    (x, ((data.filter (fun d => d.language = x)).map dataWeight).sum,
      (data.filter (fun d => d.language = x)).length) ∈ scoresClosed data :=
  List.mem_map.mpr ⟨x, (mem_firstUniq _ _).mpr hx, rfl⟩

lemma spkSegs_ne_nil (results : List SegResult) (spk : String)
    (h : spk ∈ speakersOf results) : spkSegs results spk ≠ [] := by
  rw [speakersOf, mem_firstUniq] at h
  obtain ⟨r, hr, hspk⟩ := List.mem_map.mp h
  have hmem : r ∈ spkSegs results spk := by
    rw [spkSegs, List.mem_filter]
    exact ⟨hr, decide_eq_true hspk⟩
  exact List.ne_nil_of_mem hmem

lemma mem_spkSegs (results : List SegResult) (spk : String) (r : SegResult)
    (hr : r ∈ spkSegs results spk) :
    r ∈ results ∧ r.processing_status = "success" ∧ 0 < r.language_confidence ∧
      r.speaker = spk := by
  rw [spkSegs, List.mem_filter] at hr
  obtain ⟨hr1, hr2⟩ := hr
  rw [successFilter, List.mem_filter] at hr1
  obtain ⟨hm, hp⟩ := hr1
  have hp' := of_decide_eq_true hp
  exact ⟨hm, hp'.1, hp'.2, of_decide_eq_true hr2⟩

lemma segWeight_pos (r : SegResult) (hd : 0 ≤ r.duration)
    (hconf : 0 < r.language_confidence) : 0 < segWeight r := by
  rw [segWeight]
  have h1 : 0 < r.language_confidence * (1/2) := mul_pos hconf (by norm_num)
  have h2 : 0 ≤ min (r.duration / 5) 1 * (3/10) :=
    mul_nonneg (le_min (by positivity) (by norm_num)) (by norm_num)
  have h3 : 0 ≤ min ((r.text.length : ℚ) / max r.duration 1) 1 * (1/5) :=
    mul_nonneg (le_min (div_nonneg (by positivity)
      (le_trans (by norm_num) (le_max_right r.duration 1))) (by norm_num)) (by norm_num)
  linarith

lemma sum_map_filter_le (data : List LangData) (p : LangData → Bool)
    (h : ∀ d ∈ data, 0 ≤ dataWeight d) :
    ((data.filter p).map dataWeight).sum ≤ (data.map dataWeight).sum := by
  induction data with
  | nil => simp
  | cons d ds ih =>
    have hd := h d (by simp)
    have ihs := ih (fun x hx => h x (List.mem_cons_of_mem _ hx))
    rw [List.filter_cons]
    by_cases hp : p d = true
    · rw [if_pos hp]
      simp only [List.map_cons, List.sum_cons]
      linarith
    · rw [if_neg hp]
      simp only [List.map_cons, List.sum_cons]
      linarith

lemma profileFor_unfold (data : List LangData) (hne : ¬ (data.isEmpty = true))
    (q : String × ℚ × ℕ)
    (hq : pyMaxBy (fun p : String × ℚ × ℕ => p.2.1) (langScores data) = some q) :
    profileFor data =
      ⟨q.1, min (if 0 < (data.map dataWeight).sum
          then q.2.1 / (data.map dataWeight).sum else 0) 1,
        data.length, (q.2.2 : ℚ) / (data.length : ℚ)⟩ := by
  rw [profileFor, if_neg hne, hq]

lemma dataFor_filter (results : List SegResult) (spk x : String) :
    (dataFor results spk).filter (fun d => d.language = x) =
      ((spkSegs results spk).filter (fun r => r.language = x)).map dataOf := by
  rw [dataFor]
  induction spkSegs results spk with
  | nil => rfl
  | cons r rs ih =>
    simp only [List.map_cons, List.filter_cons]
    by_cases hx : r.language = x
    · rw [if_pos (by simpa [dataOf] using hx), if_pos (by simpa using hx), ih]
      simp
    · rw [if_neg (by simpa [dataOf] using hx), if_neg (by simpa using hx), ih]

/-- Claim C3 (amended): in Speaker-Level Language Aggregation each
contributing segment's weight is `0.5 * language_confidence +
0.3 * min(duration/5, 1) + 0.2 * min(characters_per_second, 1)` where
`characters_per_second = len(text) / max(duration, 1)` — a
characters-per-second density term, not the words-per-second term of the
claim — and with non-negative durations the primary language attains the
maximal summed weight among the speaker's contributing segments and the
speaker's confidence is that language's summed weight divided by the total
weight. -/
theorem C3_speaker_aggregation (results : List SegResult)
    (hdur : ∀ r ∈ results, 0 ≤ r.duration) :
    ∀ spk prof, (spk, prof) ∈ determineSpeakerLanguages results →
      prof.language ∈ (spkSegs results spk).map (fun r => r.language) ∧
      (∀ r ∈ spkSegs results spk,
        (((spkSegs results spk).filter
            (fun r' => r'.language = r.language)).map segWeight).sum ≤
        (((spkSegs results spk).filter
            (fun r' => r'.language = prof.language)).map segWeight).sum) ∧
      prof.confidence =
        (((spkSegs results spk).filter
            (fun r' => r'.language = prof.language)).map segWeight).sum /
          ((spkSegs results spk).map segWeight).sum ∧
      prof.segments_analyzed = (spkSegs results spk).length ∧
      prof.consistency =
        (((spkSegs results spk).filter
            (fun r' => r'.language = prof.language)).length : ℚ) /
          ((spkSegs results spk).length : ℚ) := by
  intro spk prof hmem
  rw [determineSpeakerLanguages] at hmem
  obtain ⟨spk', hspk', heq⟩ := List.mem_map.mp hmem
  rw [Prod.mk.injEq] at heq
  obtain ⟨rfl, rfl⟩ := heq
  have hSne : spkSegs results spk' ≠ [] := spkSegs_ne_nil results spk' hspk'
  have hdata : dataFor results spk' = (spkSegs results spk').map dataOf := rfl
  have hdne : dataFor results spk' ≠ [] := by
    rw [hdata]
    simpa using hSne
  have hwpos : ∀ d ∈ dataFor results spk', 0 < dataWeight d := by
    rw [hdata]
    intro d hd
    obtain ⟨r, hr, rfl⟩ := List.mem_map.mp hd
    obtain ⟨hrm, _, hconf, _⟩ := mem_spkSegs results spk' r hr
    rw [← segWeight_eq]
    exact segWeight_pos r (hdur r hrm) hconf
  have hscne : scoresClosed (dataFor results spk') ≠ [] := by
    have hmne : (dataFor results spk').map (fun d => d.language) ≠ [] := by
      simpa using hdne
    cases hc : (dataFor results spk').map (fun d => d.language) with
    | nil => exact absurd hc hmne
    | cons a as => simp [scoresClosed, hc, firstUniq]
  obtain ⟨q, hq⟩ := pyMaxBy_isSome (fun p : String × ℚ × ℕ => p.2.1)
    (langScores (dataFor results spk')) (by rw [langScores_eq]; exact hscne)
  rcases q with ⟨l, w, c⟩
  have hie : ¬ ((dataFor results spk').isEmpty = true) := by
    simpa [List.isEmpty_iff] using hdne
  have hprofeq := profileFor_unfold (dataFor results spk') hie (l, w, c) hq
  dsimp only at hprofeq
  have hqmem : (l, w, c) ∈ scoresClosed (dataFor results spk') := by
    have hm := pyMaxBy_mem _ _ _ hq
    rwa [langScores_eq] at hm
  obtain ⟨hw, hc, hlmem⟩ := mem_scoresClosed _ _ hqmem
  dsimp only at hw hc hlmem
  have hsumtrans : ∀ x : String,
      (((spkSegs results spk').filter (fun r => r.language = x)).map segWeight).sum =
        (((dataFor results spk').filter (fun d => d.language = x)).map dataWeight).sum := by
    intro x
    rw [dataFor_filter, List.map_map]
    rfl
  have hcnttrans : ∀ x : String,
      ((spkSegs results spk').filter (fun r => r.language = x)).length =
        ((dataFor results spk').filter (fun d => d.language = x)).length := by
    intro x
    rw [dataFor_filter, List.length_map]
  have htot : ((spkSegs results spk').map segWeight).sum =
      ((dataFor results spk').map dataWeight).sum := by
    rw [hdata, List.map_map]
    rfl
  have hlen : (spkSegs results spk').length = (dataFor results spk').length := by
    rw [hdata, List.length_map]
  have htotpos : 0 < ((dataFor results spk').map dataWeight).sum := by
    apply List.sum_pos
    · intro x hx
      obtain ⟨d, hd, rfl⟩ := List.mem_map.mp hx
      exact hwpos d hd
    · simpa using hdne
  have hshare : w / ((dataFor results spk').map dataWeight).sum ≤ 1 := by
    rw [div_le_one htotpos, hw]
    exact sum_map_filter_le _ _ (fun d hd => le_of_lt (hwpos d hd))
  have hconfeq : (profileFor (dataFor results spk')).confidence =
      w / ((dataFor results spk').map dataWeight).sum := by
    rw [hprofeq]
    simp only [if_pos htotpos]
    exact min_eq_left hshare
  refine ⟨?_, ?_, ?_, ?_, ?_⟩
  · rw [hprofeq]
    dsimp only
    rw [hdata, List.map_map] at hlmem
    exact hlmem
  · intro r hr
    have hrlang : r.language ∈ (dataFor results spk').map (fun d => d.language) := by
      rw [hdata, List.map_map]
      exact List.mem_map.mpr ⟨r, hr, rfl⟩
    have hpair := scoresClosed_mem_of_lang (dataFor results spk') r.language hrlang
    have hle := pyMaxBy_le (fun p : String × ℚ × ℕ => p.2.1) _ _ hq _
      (by rw [langScores_eq]; exact hpair)
    dsimp only at hle
    rw [hprofeq]
    dsimp only
    rw [hsumtrans r.language, hsumtrans l, ← hw]
    exact hle
  · rw [hconfeq, hprofeq]
    dsimp only
    rw [hsumtrans l, htot, hw]
  · rw [hprofeq]
    dsimp only
    rw [hlen]
  · rw [hprofeq]
    dsimp only
    rw [hcnttrans l, hlen, hc]

/-- Claim C3 (counterexample): the implemented per-segment weight uses
characters per second, not words per second.  For speaker `S0` with segments
`("en", 0.9, 5s, text "hi")` and `("fr", 0.8, 5s, text "abcdefghij")` the
specification's words-per-second weights are `0.79` for `"en"` and `0.74`
for `"fr"` — predicting primary language `"en"` — while the code's
characters-per-second weights make `"fr"` the primary language with
confidence `0.9/1.73`. -/
theorem C3_counterexample :
    determineSpeakerLanguages exAggregate = [("S0", ⟨"fr", 90/173, 2, 1/2⟩)] ∧
    specSegmentWeight ⟨0, 0, 5, 5, "S0", "hi", "en", 9/10, "success", none⟩ = 79/100 ∧
    specSegmentWeight ⟨1, 5, 10, 5, "S0", "abcdefghij", "fr", 4/5, "success", none⟩ = 74/100 ∧
    (74 : ℚ)/100 < 79/100 ∧ ("fr" : String) ≠ "en" := by
  have h1 : ¬ ("fr" = "en") := by simp
  have h2 : ¬ ("en" = "fr") := by simp
  have h3 : ("hi".length : ℚ) = 2 := by norm_num [show "hi".length = 2 from rfl]
  have h4 : ("abcdefghij".length : ℚ) = 10 := by
    norm_num [show "abcdefghij".length = 10 from rfl]
  have h5 : ((wordCount "hi" : ℕ) : ℚ) = 1 := by norm_num [show wordCount "hi" = 1 from rfl]
  have h6 : ((wordCount "abcdefghij" : ℕ) : ℚ) = 1 := by
    norm_num [show wordCount "abcdefghij" = 1 from rfl]
  refine ⟨?_, ?_, ?_, by norm_num, by simp⟩
  · norm_num [h1, h2, h3, h4, determineSpeakerLanguages, speakersOf, successFilter,
      firstUniq, dataFor, spkSegs, dataOf, profileFor, langScores, addScore, dataWeight,
      pyMaxBy, List.filter_cons, exAggregate]
    simp
  · norm_num [h5, specSegmentWeight]
  · norm_num [h6, specSegmentWeight]

/-- Claim C3 (witness): the aggregation theorem at the specification's own
example (with concrete dense texts): segment A `("en", 0.9, 6s, ten words)`
and segment B `("fr", 0.6, 2s, two words)` give weights `0.95` and `0.62`,
primary language `"en"` with confidence `95/157 = 0.95/(0.95+0.62)`. -/
theorem C3_speaker_aggregation_witness :
    (∀ r ∈ exSpeakerAgg, 0 ≤ r.duration) ∧
    determineSpeakerLanguages exSpeakerAgg = [("S0", ⟨"en", 95/157, 2, 1/2⟩)] ∧
    (∀ r ∈ spkSegs exSpeakerAgg "S0",
      (((spkSegs exSpeakerAgg "S0").filter
          (fun r' => r'.language = r.language)).map segWeight).sum ≤
      (((spkSegs exSpeakerAgg "S0").filter
          (fun r' => r'.language = (Profile.mk "en" (95/157) 2 (1/2)).language)).map
            segWeight).sum) := by
  have hd : ∀ r ∈ exSpeakerAgg, 0 ≤ r.duration := by
    intro r hr
    fin_cases hr <;> norm_num
  have h1 : ¬ ("fr" = "en") := by simp
  have h2 : ¬ ("en" = "fr") := by simp
  have h3 : ("a b c d e f g h i j".length : ℚ) = 19 := by
    norm_num [show "a b c d e f g h i j".length = 19 from rfl]
  have h4 : ("ab cd".length : ℚ) = 5 := by norm_num [show "ab cd".length = 5 from rfl]
  have heval : determineSpeakerLanguages exSpeakerAgg = [("S0", ⟨"en", 95/157, 2, 1/2⟩)] := by
    norm_num [h1, h2, h3, h4, determineSpeakerLanguages, speakersOf, successFilter,
      firstUniq, dataFor, spkSegs, dataOf, profileFor, langScores, addScore, dataWeight,
      pyMaxBy, List.filter_cons, exSpeakerAgg]
    simp
  refine ⟨hd, heval, ?_⟩
  exact ((C3_speaker_aggregation exSpeakerAgg hd) "S0" ⟨"en", 95/157, 2, 1/2⟩
    (by rw [heval]; simp)).2.1

lemma pyMinBy_isSome {α β : Type} [LinearOrder β] (f : α → β) (l : List α) (hne : l ≠ []) :
    ∃ a, pyMinBy f l = some a := by
  cases l with
  | nil => exact absurd rfl hne
  | cons x xs =>
    rw [pyMinBy]
    rcases pyMinBy f xs with _ | b
    · exact ⟨x, rfl⟩
    · simp only
      split_ifs
      · exact ⟨b, rfl⟩
      · exact ⟨x, rfl⟩

lemma pyMinBy_mem {α β : Type} [LinearOrder β] (f : α → β) (l : List α) (a : α)
    (h : pyMinBy f l = some a) : a ∈ l := by
  induction l generalizing a with
  | nil => simp [pyMinBy] at h
  | cons x xs ih =>
    rw [pyMinBy] at h
    rcases hxs : pyMinBy f xs with _ | b
    · rw [hxs] at h
      simp at h
      simp [h]
    · rw [hxs] at h
      simp only at h
      split_ifs at h with hf
      · exact List.mem_cons_of_mem _ (ih a (hxs.trans h))
      · simp at h
        simp [h]

lemma lookup_zip_of_nodup {l1 l2 : List ℕ} (hnd : l1.Nodup) (i lab : ℕ)
    (h : (i, lab) ∈ l1.zip l2) : (l1.zip l2).lookup i = some lab := by
  induction l1 generalizing l2 with
  | nil => simp at h
  | cons kk ks ih =>
    cases l2 with
    | nil => simp at h
    | cons v vs =>
      rw [List.zip_cons_cons] at h ⊢
      rcases List.mem_cons.mp h with heq | hmem
      · injection heq with h1 h2
        subst h1
        subst h2
        simp [List.lookup]
      · have hik : i ≠ kk := by
          intro hik
          subst hik
          exact (List.nodup_cons.mp hnd).1 (List.of_mem_zip hmem).1
        rw [List.lookup]
        rw [show (i == kk) = false from beq_eq_false_iff_ne.mpr hik]
        exact ih (List.nodup_cons.mp hnd).2 hmem

lemma lookup_zip_mem_values {l1 l2 : List ℕ} (i lab : ℕ)
    (h : (l1.zip l2).lookup i = some lab) : lab ∈ l2 := by
  induction l1 generalizing l2 with
  | nil => simp [List.lookup] at h
  | cons kk ks ih =>
    cases l2 with
    | nil => simp [List.lookup] at h
    | cons v vs =>
      rw [List.zip_cons_cons, List.lookup] at h
      rcases hbeq : (i == kk) with _ | _
      · rw [hbeq] at h
        exact List.mem_cons_of_mem _ (ih h)
      · rw [hbeq] at h
        simp only [Option.some.injEq] at h
        simp [h]

lemma lookup_zip_isSome {l1 l2 : List ℕ} (i : ℕ) (hi : i ∈ l1)
    (hlen : l1.length = l2.length) : ∃ lab, (l1.zip l2).lookup i = some lab := by
  induction l1 generalizing l2 with
  | nil => simp at hi
  | cons kk ks ih =>
    cases l2 with
    | nil => simp at hlen
    | cons v vs =>
      rw [List.zip_cons_cons, List.lookup]
      rcases hbeq : (i == kk) with _ | _
      · have hik : i ≠ kk := by simpa using hbeq
        have hiks : i ∈ ks := by
          rcases List.mem_cons.mp hi with rfl | hm
          · exact absurd rfl hik
          · exact hm
        exact ih hiks (by simpa using hlen)
      · exact ⟨v, rfl⟩

lemma voicedIdx_bounds {E : Type} (l : List (Option E × Bool)) (k : ℕ) :
    ∀ p ∈ voicedIdx k l, k ≤ p.1 ∧ p.1 < k + l.length := by
  induction l generalizing k with
  | nil => simp [voicedIdx]
  | cons x rest ih =>
    rcases x with ⟨oe, b⟩
    intro p hp
    cases b with
    | false =>
      simp only [voicedIdx] at hp
      have := ih (k + 1) p hp
      simp only [List.length_cons]
      omega
    | true =>
      cases oe with
      | none =>
        simp only [voicedIdx] at hp
        have := ih (k + 1) p hp
        simp only [List.length_cons]
        omega
      | some e =>
        simp only [voicedIdx] at hp
        rcases List.mem_cons.mp hp with rfl | hp'
        · simp only [List.length_cons]
          omega
        · have := ih (k + 1) p hp'
          simp only [List.length_cons]
          omega

lemma voicedIdx_fst_nodup {E : Type} (l : List (Option E × Bool)) (k : ℕ) :
    ((voicedIdx k l).map (fun p => p.1)).Nodup := by
  induction l generalizing k with
  | nil => simp [voicedIdx]
  | cons x rest ih =>
    rcases x with ⟨oe, b⟩
    cases b with
    | false => simpa only [voicedIdx] using ih (k + 1)
    | true =>
      cases oe with
      | none => simpa only [voicedIdx] using ih (k + 1)
      | some e =>
        simp only [voicedIdx, List.map_cons, List.nodup_cons]
        refine ⟨?_, ih (k + 1)⟩
        intro hk
        obtain ⟨p, hp, hpk⟩ := List.mem_map.mp hk
        have := (voicedIdx_bounds rest (k + 1) p hp).1
        omega

lemma zip_mem_of_mem_right {l1 l2 : List ℕ} (hlen : l1.length = l2.length) (lab : ℕ)
    (hl : lab ∈ l2) : ∃ i, i ∈ l1 ∧ (i, lab) ∈ l1.zip l2 := by
  induction l1 generalizing l2 with
  | nil =>
    cases l2 with
    | nil => simp at hl
    | cons v vs => simp at hlen
  | cons kk ks ih =>
    cases l2 with
    | nil => simp at hl
    | cons v vs =>
      rcases List.mem_cons.mp hl with rfl | hmem
      · exact ⟨kk, by simp, by simp [List.zip_cons_cons]⟩
      · obtain ⟨i, hi, hzip⟩ := ih (by simpa using hlen) hmem
        exact ⟨i, List.mem_cons_of_mem _ hi,
          by simp only [List.zip_cons_cons]; exact List.mem_cons_of_mem _ hzip⟩

lemma mem_insUniqInt (x y : ℤ) (l : List ℤ) : y ∈ insUniqInt x l ↔ y = x ∨ y ∈ l := by
  induction l with
  | nil => simp [insUniqInt]
  | cons z zs ih =>
    rw [insUniqInt]
    split_ifs with h1 h2
    · simp
    · subst h2
      simp only [List.mem_cons]
      tauto
    · simp only [List.mem_cons, ih]
      tauto

lemma mem_sortedUniqInt (l : List ℤ) (y : ℤ) : y ∈ sortedUniqInt l ↔ y ∈ l := by
  induction l with
  | nil => simp [sortedUniqInt]
  | cons x xs ih =>
    rw [sortedUniqInt, mem_insUniqInt]
    simp [ih]

lemma idxOfInt_get (l : List ℤ) (x : ℤ) (hx : x ∈ l) : l.get? (idxOfInt l x) = some x := by
  induction l with
  | nil => simp at hx
  | cons y ys ih =>
    rw [idxOfInt]
    by_cases hxy : x = y
    · rw [if_pos hxy]
      simp [hxy]
    · rw [if_neg hxy]
      have hxs : x ∈ ys := by
        rcases List.mem_cons.mp hx with h | h
        · exact absurd h hxy
        · exact h
      simpa using ih hxs

lemma idxOfInt_inj (l : List ℤ) (a b : ℤ) (ha : a ∈ l) (hb : b ∈ l)
    (h : idxOfInt l a = idxOfInt l b) : a = b := by
  have h1 := idxOfInt_get l a ha
  have h2 := idxOfInt_get l b hb
  rw [h] at h1
  exact Option.some.inj (h1.symm.trans h2)

lemma nearestLabel_some (idxLab : List (ℕ × ℕ)) (v l : ℕ)
    (h : idxLab.lookup v = some l) : nearestLabel idxLab v = (l : ℤ) := by
  rw [nearestLabel, h]

lemma filledLabelAt_some (idxLab : List (ℕ × ℕ)) (vis : List ℕ) (i l : ℕ)
    (hl : idxLab.lookup i = some l) : filledLabelAt idxLab vis i = (l : ℤ) := by
  rw [filledLabelAt, hl]

lemma filledLabelAt_none (idxLab : List (ℕ × ℕ)) (vis : List ℕ) (i v : ℕ)
    (hl : idxLab.lookup i = none)
    (hv : pyMinBy (fun (w : ℕ) => ((w : ℤ) - (i : ℤ)).natAbs) vis = some v) :
    filledLabelAt idxLab vis i = nearestLabel idxLab v := by
  rw [filledLabelAt, hl, hv]

lemma toFinset_map_eq {α β : Type} [DecidableEq α] [DecidableEq β] (l : List α) (f : α → β) :
    (l.map f).toFinset = l.toFinset.image f := by
  induction l with
  | nil => simp
  | cons x xs ih => simp [ih]

lemma scatterFill_sub (vis labels : List ℕ) (n : ℕ) (hvne : vis ≠ [])
    (hlen : vis.length = labels.length) :
    ∀ x ∈ scatterFill (vis.zip labels) vis n, ∃ lab ∈ labels, x = (lab : ℤ) := by
  intro x hx
  rw [scatterFill] at hx
  obtain ⟨i, _, rfl⟩ := List.mem_map.mp hx
  rcases hl : (vis.zip labels).lookup i with _ | lab
  · obtain ⟨v, hv⟩ := pyMinBy_isSome (fun (w : ℕ) => ((w : ℤ) - (i : ℤ)).natAbs) vis hvne
    obtain ⟨lab, hlab⟩ := lookup_zip_isSome v (pyMinBy_mem _ _ _ hv) hlen
    rw [filledLabelAt_none _ _ _ _ hl hv, nearestLabel_some _ _ _ hlab]
    exact ⟨lab, lookup_zip_mem_values v lab hlab, rfl⟩
  · rw [filledLabelAt_some _ _ _ _ hl]
    exact ⟨lab, lookup_zip_mem_values i lab hl, rfl⟩

lemma scatterFill_at_key (vis labels : List ℕ) (n : ℕ) (hnd : vis.Nodup)
    (i lab : ℕ) (hmem : (i, lab) ∈ vis.zip labels) (hi : i < n) :
    (lab : ℤ) ∈ scatterFill (vis.zip labels) vis n := by
  rw [scatterFill]
  refine List.mem_map.mpr ⟨i, List.mem_range.mpr hi, ?_⟩
  exact filledLabelAt_some _ _ _ _ (lookup_zip_of_nodup hnd i lab hmem)

lemma relabelConsecutive_card (filled : List ℤ) (hpos : ∀ x ∈ filled, 0 ≤ x) :
    distinctSpeakerCount (relabelConsecutive filled) = distinctSpeakerCount filled := by
  rw [relabelConsecutive, distinctSpeakerCount, distinctSpeakerCount, toFinset_map_eq]
  apply Finset.card_image_of_injOn
  intro a ha b hb hab
  simp only [Finset.mem_coe, List.mem_toFinset] at ha hb
  have ha0 := hpos a ha
  have hb0 := hpos b hb
  simp only [] at hab
  rw [if_pos ha0, if_pos hb0] at hab
  have hidx : idxOfInt (sortedUniqInt (filled.filter (fun l' => 0 ≤ l'))) a =
      idxOfInt (sortedUniqInt (filled.filter (fun l' => 0 ≤ l'))) b := by
    exact_mod_cast hab
  refine idxOfInt_inj _ a b ?_ ?_ hidx
  · rw [mem_sortedUniqInt, List.mem_filter]
    exact ⟨ha, decide_eq_true ha0⟩
  · rw [mem_sortedUniqInt, List.mem_filter]
    exact ⟨hb, decide_eq_true hb0⟩

lemma sortedUniqInt_replicate_zero (n : ℕ) :
    sortedUniqInt (List.replicate (n + 1) 0) = [0] := by
  induction n with
  | zero => rfl
  | succ m ih =>
    rw [List.replicate_succ, sortedUniqInt, ih]
    rfl

lemma relabelConsecutive_replicate_zero (n : ℕ) :
    relabelConsecutive (List.replicate n 0) = List.replicate n 0 := by
  cases n with
  | zero => rfl
  | succ m =>
    rw [relabelConsecutive]
    have hfilter : (List.replicate (m + 1) (0 : ℤ)).filter (fun l' => 0 ≤ l') =
        List.replicate (m + 1) 0 := by
      apply List.filter_eq_self.mpr
      intro a ha
      rw [List.eq_of_mem_replicate ha]
      simp
    rw [hfilter, sortedUniqInt_replicate_zero]
    rw [List.map_replicate]
    congr 1

lemma scatterFill_replicate (vis : List ℕ) (n m : ℕ) (hvne : vis ≠ [])
    (hlen : vis.length = m) :
    scatterFill (vis.zip (List.replicate m 0)) vis n = List.replicate n 0 := by
  rw [scatterFill]
  have hz : ∀ i : ℕ, filledLabelAt (vis.zip (List.replicate m 0)) vis i = 0 := by
    intro i
    have hlen' : vis.length = (List.replicate m (0 : ℕ)).length := by
      rw [List.length_replicate, hlen]
    rcases hl : (vis.zip (List.replicate m 0)).lookup i with _ | lab
    · obtain ⟨v, hv⟩ := pyMinBy_isSome (fun (w : ℕ) => ((w : ℤ) - (i : ℤ)).natAbs) vis hvne
      obtain ⟨lab, hlab⟩ := lookup_zip_isSome v (pyMinBy_mem _ _ _ hv) hlen'
      have h0 : lab = 0 := List.eq_of_mem_replicate (lookup_zip_mem_values v lab hlab)
      simp [filledLabelAt_none _ _ _ _ hl hv, nearestLabel_some _ _ _ hlab, h0]
    · have h0 : lab = 0 := List.eq_of_mem_replicate (lookup_zip_mem_values i lab hl)
      simp [filledLabelAt_some _ _ _ _ hl, h0]
  calc (List.range n).map (filledLabelAt (vis.zip (List.replicate m 0)) vis)
      = (List.range n).map (fun _ => (0 : ℤ)) := List.map_congr_left (fun i _ => hz i)
    _ = List.replicate n 0 := by
        rw [List.map_const']
        simp

/-- Claim C8 (amended): when a caller supplies `num_speakers = k ≥ 2` and at
least `k` voiced embedded frames exist and the clustering oracle returns one
of each label `0..k-1` per voiced frame, the label array of
`_perform_clustering` uses exactly `k` distinct speaker labels; but when
fewer voiced frames than `k` exist the function silently falls back to a
single label for every frame through an ordinary branch (lines 340-341), not
only on catastrophic clustering failure, so the output can use fewer than
`num_speakers` labels without any failure having occurred. -/
theorem C8_cluster_count {E : Type} (cluster : List E → List ℕ) (estimate : List E → ℕ)
    (embeddings : List (Option E)) (va : List Bool) (k : ℕ) (hk : 2 ≤ k) :
    (k ≤ (voicedWithIdx embeddings va).length →
      (cluster ((voicedWithIdx embeddings va).map (fun p => p.2))).length =
        (voicedWithIdx embeddings va).length →
      (∀ lab ∈ cluster ((voicedWithIdx embeddings va).map (fun p => p.2)), lab < k) →
      (∀ j, j < k → j ∈ cluster ((voicedWithIdx embeddings va).map (fun p => p.2))) →
      distinctSpeakerCount (performClustering cluster estimate embeddings va (some k)) = k) ∧
    ((voicedWithIdx embeddings va).length < k →
      performClustering cluster estimate embeddings va (some k) =
        List.replicate embeddings.length 0) := by
  constructor
  · intro hkle hclen hbound hcover
    have hvne0 : ¬ ((voicedWithIdx embeddings va).length = 0) := by omega
    have hcond : ¬ (k = 1 ∨ (voicedWithIdx embeddings va).length < k) := by
      push_neg
      omega
    have hunfold : performClustering cluster estimate embeddings va (some k) =
        relabelConsecutive (scatterFill
          (((voicedWithIdx embeddings va).map (fun p => p.1)).zip
            (cluster ((voicedWithIdx embeddings va).map (fun p => p.2))))
          ((voicedWithIdx embeddings va).map (fun p => p.1)) embeddings.length) := by
      simp only [performClustering]
      rw [if_neg hvne0]
      rw [if_neg hcond]
    rw [hunfold]
    have hvne : (voicedWithIdx embeddings va).map (fun p => p.1) ≠ [] := by
      intro h
      have h0 : (voicedWithIdx embeddings va).length = 0 := by
        simpa using congrArg List.length h
      omega
    have hlen : ((voicedWithIdx embeddings va).map (fun p => p.1)).length =
        (cluster ((voicedWithIdx embeddings va).map (fun p => p.2))).length := by
      rw [List.length_map, hclen]
    have hnd : ((voicedWithIdx embeddings va).map (fun p => p.1)).Nodup :=
      voicedIdx_fst_nodup _ 0
    have hfinset : (scatterFill
        (((voicedWithIdx embeddings va).map (fun p => p.1)).zip
          (cluster ((voicedWithIdx embeddings va).map (fun p => p.2))))
        ((voicedWithIdx embeddings va).map (fun p => p.1)) embeddings.length).toFinset =
        ((cluster ((voicedWithIdx embeddings va).map (fun p => p.2))).map
          (fun (lab : ℕ) => (lab : ℤ))).toFinset := by
      apply Finset.ext
      intro x
      rw [List.mem_toFinset, List.mem_toFinset]
      constructor
      · intro hx
        obtain ⟨lab, hlab, rfl⟩ := scatterFill_sub _ _ _ hvne hlen x hx
        exact List.mem_map_of_mem _ hlab
      · intro hx
        obtain ⟨lab, hlab, hcast⟩ := List.mem_map.mp hx
        obtain ⟨i, hi, hzip⟩ := zip_mem_of_mem_right hlen lab hlab
        rw [← hcast]
        obtain ⟨p, hp, rfl⟩ := List.mem_map.mp hi
        have hbounds := voicedIdx_bounds (embeddings.zip va) 0 p hp
        have hin : p.1 < embeddings.length := by
          have hle : (embeddings.zip va).length = min embeddings.length va.length :=
            List.length_zip embeddings va
          have : (embeddings.zip va).length ≤ embeddings.length := by
            rw [hle]
            exact min_le_left _ _
          omega
        exact scatterFill_at_key _ _ _ hnd p.1 lab hzip hin
    have hposvals : ∀ x ∈ scatterFill
        (((voicedWithIdx embeddings va).map (fun p => p.1)).zip
          (cluster ((voicedWithIdx embeddings va).map (fun p => p.2))))
        ((voicedWithIdx embeddings va).map (fun p => p.1)) embeddings.length, 0 ≤ x := by
      intro x hx
      obtain ⟨lab, _, rfl⟩ := scatterFill_sub _ _ _ hvne hlen x hx
      exact Int.natCast_nonneg lab
    rw [relabelConsecutive_card _ hposvals, distinctSpeakerCount, hfinset,
      toFinset_map_eq]
    rw [Finset.card_image_of_injective _ (fun a b h => by exact_mod_cast h)]
    have hrange : (cluster ((voicedWithIdx embeddings va).map (fun p => p.2))).toFinset =
        Finset.range k := by
      apply Finset.ext
      intro j
      rw [List.mem_toFinset, Finset.mem_range]
      exact ⟨fun h => hbound j h, fun h => hcover j h⟩
    rw [hrange, Finset.card_range]
  · intro hlt
    by_cases hv0 : (voicedWithIdx embeddings va).length = 0
    · simp only [performClustering]
      rw [if_pos hv0]
    · simp only [performClustering]
      rw [if_neg hv0]
      rw [if_pos (Or.inr hlt)]
      have hvne : (voicedWithIdx embeddings va).map (fun p => p.1) ≠ [] := by
        intro h
        have h0 : (voicedWithIdx embeddings va).length = 0 := by
          simpa using congrArg List.length h
        exact hv0 h0
      rw [scatterFill_replicate _ _ _ hvne (by rw [List.length_map]),
        relabelConsecutive_replicate_zero]

/-- Claim C8 (counterexample): with `num_speakers = 2` supplied, one voiced
frame with a valid embedding, and no failure of any kind, the guard
`len(voiced_embeddings) < n_clusters` silently produces a single label: the
label array is `[0]` (one distinct label, not two) and the resulting segment
list names only `SPEAKER_00`. -/
theorem C8_counterexample :
    performClustering clusterStub estimateStub [some ()] [true] (some 2) = [0] ∧
    distinctSpeakerCount (performClustering clusterStub estimateStub [some ()] [true]
      (some 2)) ≠ 2 ∧
    (postprocessSegments (createSegments
        (performClustering clusterStub estimateStub [some ()] [true] (some 2)) [0])).map
      (fun s => s.speaker) = [speakerName 0] := by
  have h : performClustering clusterStub estimateStub [some ()] [true] (some 2) = [0] := by
    norm_num [performClustering, scatterFill, relabelConsecutive, voicedWithIdx, voicedIdx,
      filledLabelAt, nearestLabel, pyMinBy, sortedUniqInt, insUniqInt, idxOfInt, List.lookup,
      List.range_succ]
  rw [h]
  refine ⟨rfl, by norm_num [distinctSpeakerCount], ?_⟩
  norm_num [createSegments, createSegmentsAux, postprocessSegments, sbMinSegmentDuration,
    segmentLength, mergeStep, List.filter_cons]

/-- Claim C8 (witness): the exact-count theorem applied to two voiced frames
clustered into two labels with `num_speakers = 2`. -/
theorem C8_cluster_count_witness :
    2 ≤ (voicedWithIdx [some (), some ()] [true, true]).length ∧
    distinctSpeakerCount (performClustering clusterPair estimateStub
      [some (), some ()] [true, true] (some 2)) = 2 := by
  have hv : voicedWithIdx [some (), some ()] [true, true] = [(0, ()), (1, ())] := rfl
  have h1 : 2 ≤ (voicedWithIdx [some (), some ()] [true, true]).length := by
    rw [hv]
    norm_num
  refine ⟨h1, ?_⟩
  refine (C8_cluster_count clusterPair estimateStub [some (), some ()] [true, true] 2
    (le_refl 2)).1 h1 ?_ ?_ ?_
  · rw [hv]
    rfl
  · intro lab hlab
    rw [hv] at hlab
    simp only [clusterPair] at hlab
    rcases List.mem_cons.mp hlab with rfl | hlab'
    · omega
    · rcases List.mem_cons.mp hlab' with rfl | h
      · omega
      · simp at h
  · intro j hj
    rw [hv]
    simp only [clusterPair]
    interval_cases j
    · simp
    · simp

end Pipeline
